import Mathlib

/-!
# Verification of the `transmute` planner/executor (`graph.py`)

A shallow embedding of `src/graph.py` (the `Grimoire` class: registration,
bidirectional search, retry-on-failure execution), together with theorems
settling the frozen claims about its specification.

Python hashable values (categories and tags) are modelled as pairs of
integers whose Python hash is the first component, so that distinct values
with colliding hashes are expressible.  Python `float` priorities (always
produced here by dividing an integer by a small positive integer) are
modelled as exact unnormalized fractions compared by cross-multiplication.  Python
`heapq` operations are embedded operation-for-operation.  The unbounded
`while` loop of `_search` is embedded with explicit fuel: running out of
fuel yields a distinguished outcome, so every theorem about a returned
chain quantifies over the fuel.
-/

namespace Transmute

/-- A Python hashable value: `(hash, salt)`.  Two values are equal only if
both components agree, but their Python hash is the first component alone,
so `(5, 0)` and `(5, 1)` are distinct values with colliding hashes. -/
abbrev Obj := Int × Int

/-- Python `hash` of a modelled value. -/
def pyHash (o : Obj) : Int := o.1

/-- A Python `float` priority value, kept as an exact fraction
`num / den` with `den > 0` throughout this development (the source only ever
divides an integer cost by a set cardinality plus one, and adds an integer).
Comparison and equality are numeric, by cross-multiplication, as on floats. -/
structure PyFloat where
  num : Int
  den : Int

/-- Python `==` on two such float values (numeric equality). -/
def pyfEq (a b : PyFloat) : Bool := a.num * b.den = b.num * a.den

/-- Python `<` on two such float values (numeric order; denominators are
positive in every value this development builds). -/
def pyfLt (a b : PyFloat) : Bool := a.num * b.den < b.num * a.den

/-- The float division `c / d` of the source's priority computations. -/
def pyfDiv (c d : Int) : PyFloat := ⟨c, d⟩

/-- The float sum `n + f` of an integer cost and a float priority. -/
def pyfAddInt (n : Int) (f : PyFloat) : PyFloat := ⟨n * f.den + f.num, f.den⟩

/-- The `Transmuter` namedtuple of `graph.py`:
`(cost, hash_in, hash_out, var_hash_in, var_hash_out, function)`.
The opaque function object is modelled by a numeric identity. -/
structure Transmuter where
  cost : Int
  hash_in : Int
  hash_out : Int
  var_hash_in : Finset Int
  var_hash_out : Finset Int
  function : Nat
deriving DecidableEq

/-- Python `<` between two `Transmuter` namedtuples: tuple comparison finds
the first unequal field and compares it with `<`; on frozensets `<` is the
strict-subset test.  Comparing the function objects would raise `TypeError`
in Python; that case (all other fields equal, functions different) returns
`false` here and is never reached in the runs considered. -/
def transLt (a b : Transmuter) : Bool :=
  if a.cost ≠ b.cost then a.cost < b.cost
  else if a.hash_in ≠ b.hash_in then a.hash_in < b.hash_in
  else if a.hash_out ≠ b.hash_out then a.hash_out < b.hash_out
  else if a.var_hash_in ≠ b.var_hash_in then a.var_hash_in ⊂ b.var_hash_in
  else if a.var_hash_out ≠ b.var_hash_out then a.var_hash_out ⊂ b.var_hash_out
  else false

/-- The `Node` namedtuple of `graph.py`:
`(adjusted_cost, cost, transmuter, parent, variations)`. -/
inductive Node where
  | mk (adjusted : PyFloat) (cost : Int) (transmuter : Transmuter) (parent : Option Node)
      (variations : Finset Int)

def Node.adjusted : Node → PyFloat
  | .mk a _ _ _ _ => a

def Node.cost : Node → Int
  | .mk _ c _ _ _ => c

def Node.transmuter : Node → Transmuter
  | .mk _ _ t _ _ => t

def Node.parent : Node → Option Node
  | .mk _ _ _ p _ => p

def Node.variations : Node → Finset Int
  | .mk _ _ _ _ v => v

/-- Python `==` on `Node` namedtuples (structural equality of all fields). -/
def Node.beq : Node → Node → Bool
  | .mk a c t p v, .mk a' c' t' p' v' =>
    pyfEq a a' && decide (c = c') && decide (t = t') &&
    (match p, p' with
     | none, none => true
     | some x, some y => Node.beq x y
     | _, _ => false) &&
    decide (v = v')

/-- Python `<` on `Node` namedtuples (tuple comparison; frozensets compare by
strict subset).  Comparing a parent `Node` against `None` would raise
`TypeError` in Python; that case returns `false` here and is never reached in
the runs considered. -/
def nodeLt : Node → Node → Bool
  | .mk a c t p v, .mk a' c' t' p' v' =>
    if ¬ pyfEq a a' then pyfLt a a'
    else if c ≠ c' then c < c'
    else if t ≠ t' then transLt t t'
    else
      match p, p' with
      | none, none => decide (v ⊂ v')
      | some x, some y => if Node.beq x y then decide (v ⊂ v') else nodeLt x y
      | _, _ => false

/-- Walking the `parent` pointers: `Grimoire._walk_node`. -/
def walkNode : Node → List Node
  | n@(.mk _ _ _ none _) => [n]
  | n@(.mk _ _ _ (some p) _) => n :: walkNode p

/-! ## Python `heapq`, embedded operation-for-operation -/

/-- `heapq._siftdown(heap, 0, pos)`: bubble `newitem` from slot `pos` towards
the root, shifting larger parents down; finally store `newitem`.  The walk
strictly decreases `pos`, so it performs at most `pos` steps; `fuel` bounds
them structurally and any `fuel ≥ pos` is exact. -/
def siftdownRec (lt : α → α → Bool) : Nat → List α → α → Nat → List α
  | 0, heap, newitem, pos => heap.set pos newitem
  | fuel + 1, heap, newitem, pos =>
    match pos with
    | 0 => heap.set 0 newitem
    | pp + 1 =>
      let parentpos := pp / 2
      match heap[parentpos]? with
      | none => heap.set (pp + 1) newitem
      | some parent =>
        if lt newitem parent then
          siftdownRec lt fuel (heap.set (pp + 1) parent) newitem parentpos
        else
          heap.set (pp + 1) newitem

/-- `heapq.heappush`: append, then sift the new item up. -/
def heappush (lt : α → α → Bool) (heap : List α) (item : α) : List α :=
  siftdownRec lt heap.length (heap ++ [item]) item heap.length

/-- `heapq._siftup(heap, pos)` (with the trailing `_siftdown` call): move the
hole at `pos` down to a leaf following the smaller child, then sift the new
item up from there.  `fuel` bounds the walk; `heap.length` always suffices. -/
def siftupRec (lt : α → α → Bool) (heap : List α) (newitem : α) (pos : Nat) :
    Nat → List α
  | 0 => siftdownRec lt pos (heap.set pos newitem) newitem pos
  | fuel + 1 =>
    let childpos := 2 * pos + 1
    match heap[childpos]? with
    | none => siftdownRec lt pos (heap.set pos newitem) newitem pos
    | some left =>
      let rightpos := childpos + 1
      let cpos :=
        match heap[rightpos]? with
        | some right => if lt left right then childpos else rightpos
        | none => childpos
      match heap[cpos]? with
      | none => siftdownRec lt pos (heap.set pos newitem) newitem pos
      | some child => siftupRec lt (heap.set pos child) newitem cpos fuel

/-- `heapq.heappop`: remove and return the smallest item.  Python raises
`IndexError` on an empty heap; that is `none` here (never reached: the search
only pops queues it has checked to be non-empty). -/
def heappop (lt : α → α → Bool) (heap : List α) : Option (α × List α) :=
  match heap with
  | [] => none
  | x :: xs =>
    let lastelt := (x :: xs).getLast (by simp)
    match (x :: xs).dropLast with
    | [] => some (lastelt, [])
    | r0 :: rrest =>
      some (r0, siftupRec lt ((r0 :: rrest).set 0 lastelt) lastelt 0
        (r0 :: rrest).length)

/-! ## The registry (`Grimoire.__init__`, `inscribe_transmutation`,
`inscribe_detector`) -/

/-- An insertion-ordered dictionary from `Int` hashes, as Python `defaultdict`
with list values. -/
abbrev HDict := List (Int × List Transmuter)

def dictGetD (d : HDict) (k : Int) (dflt : List Transmuter) : List Transmuter :=
  match d.find? (fun p => decide (p.1 = k)) with
  | some p => p.2
  | none => dflt

/-- `d[k] = f(d[k] or default)` on an insertion-ordered dictionary: replace in
place if the key exists, else append a new entry. -/
def dictUpd (d : HDict) (k : Int) (f : List Transmuter → List Transmuter) : HDict :=
  match d with
  | [] => [(k, f [])]
  | (k', v) :: rest =>
    if k' = k then (k', f v) :: rest else (k', v) :: dictUpd rest k f

/-- The `Grimoire` state: `_input_map`, `_output_map` keyed by hash, and
`_detector_maps` keyed by the category value itself (a Python `dict` keyed by
the object, so hash-colliding but unequal categories keep separate entries).
Detector functions are modelled by numeric identities. -/
structure Grimoire where
  input_map : HDict
  output_map : HDict
  detector_maps : List (Obj × List Nat)

def Grimoire.empty : Grimoire := ⟨[], [], []⟩

/-- `Grimoire.inscribe_transmutation`: hash the categories and tag sequences,
build the `Transmuter`, and `heappush` it into both maps. -/
def inscribe_transmutation (g : Grimoire) (cost : Int) (type_in : Obj)
    (variations_in : List Obj) (type_out : Obj) (variations_out : List Obj)
    (function : Nat) : Grimoire :=
  let hash_in := pyHash type_in
  let hash_out := pyHash type_out
  let hash_var_in : Finset Int := (variations_in.map pyHash).toFinset
  let hash_var_out : Finset Int := (variations_out.map pyHash).toFinset
  let t : Transmuter := ⟨cost, hash_in, hash_out, hash_var_in, hash_var_out, function⟩
  { g with
    input_map := dictUpd g.input_map hash_in (fun l => heappush transLt l t)
    output_map := dictUpd g.output_map hash_out (fun l => heappush transLt l t) }

/-- `Grimoire.inscribe_detector`: append the detector under the category
value. -/
def inscribe_detector (g : Grimoire) (type_ : Obj) (detector : Nat) : Grimoire :=
  let rec upd : List (Obj × List Nat) → List (Obj × List Nat)
    | [] => [(type_, [detector])]
    | (k, v) :: rest =>
      if k = type_ then (k, v ++ [detector]) :: rest else (k, v) :: upd rest
  { g with detector_maps := upd g.detector_maps }

/-! ## `Grimoire._search` -/

abbrev VKey := Option (Finset Int)

/-- One of the two-level visited tables `transmuter -> dict(state -> node)`,
with Python dict insertion-order semantics. -/
abbrev VTable := List (Transmuter × List (VKey × Node))

def vtGet (vt : VTable) (t : Transmuter) : List (VKey × Node) :=
  match vt.find? (fun p => decide (p.1 = t)) with
  | some p => p.2
  | none => []

def vtValues (vt : VTable) (t : Transmuter) : List Node :=
  (vtGet vt t).map Prod.snd

def vtHasKey (vt : VTable) (t : Transmuter) (k : VKey) : Bool :=
  (vtGet vt t).any (fun p => decide (p.1 = k))

def innerUpd (l : List (VKey × Node)) (k : VKey) (n : Node) : List (VKey × Node) :=
  match l with
  | [] => [(k, n)]
  | (k', v) :: rest =>
    if k' = k then (k, n) :: rest else (k', v) :: innerUpd rest k n

def vtInsert (vt : VTable) (t : Transmuter) (k : VKey) (n : Node) : VTable :=
  match vt with
  | [] => [(t, [(k, n)])]
  | (t', l) :: rest =>
    if t' = t then (t, innerUpd l k n) :: rest else (t', l) :: vtInsert rest t k n

/-- The per-call context of a `_search` invocation. -/
structure Ctx where
  g : Grimoire
  inHash : Int
  outHash : Int
  inVars : Finset Int
  outVars : Finset Int
  ignore : List Transmuter

/-- The mutable state of the `while` loop in `_search`. -/
structure SState where
  in_queue : List Node
  out_queue : List Node
  in_visited : VTable
  out_visited : VTable

/-- `node.parent.variations if node.parent else None`: the visited-table key
of a node. -/
def parentKey (n : Node) : VKey :=
  match n.parent with
  | some p => some p.variations
  | none => none

/-- `node.parent.variations if node.parent else in_variations_hash`. -/
def parentVars (n : Node) (dflt : Finset Int) : Finset Int :=
  match n.parent with
  | some p => p.variations
  | none => dflt

/-- `[n.transmuter for n in reversed(list(walk(node)))]`. -/
def fwdChain (n : Node) : List Transmuter :=
  ((walkNode n).map Node.transmuter).reverse

/-- `[n.transmuter for n in walk(node)]`. -/
def bwdChain (n : Node) : List Transmuter :=
  (walkNode n).map Node.transmuter

/-- The meet-in-the-middle splice:
`chain(reversed(list(walk(fnode))[1:]), walk(bnode))` mapped to transmuters. -/
def spliceChain (fnode bnode : Node) : List Transmuter :=
  (((walkNode fnode).drop 1).map Node.transmuter).reverse ++ bwdChain bnode

/-- The forward meet check: the first backward-visited node on the same
transmuter whose outstanding obligation is covered by the forward node's
pre-firing supply. -/
def findMeetF (c : Ctx) (st : SState) (node : Node) : Option Node :=
  (vtValues st.out_visited node.transmuter).find?
    (fun m => decide (m.variations ⊆ parentVars node c.inVars))

/-- The backward meet check, symmetric to `findMeetF`. -/
def findMeetB (c : Ctx) (st : SState) (node : Node) : Option Node :=
  (vtValues st.in_visited node.transmuter).find?
    (fun m => decide (node.variations ⊆ parentVars m c.inVars))

/-- Forward record-and-relax: record the popped node in the forward visited
table, then push every edge out of its output category whose key is not yet
visited and whose requirements are met.  Note the locally computed
`variations` value that adds `var_hash_out` is discarded by the source: the
pushed node's state is `node.variations - transmuter.var_hash_in`. -/
def fwdExpand (c : Ctx) (st : SState) (node : Node) (rest : List Node) : SState :=
  let ivis := vtInsert st.in_visited node.transmuter (parentKey node) node
  let q := (dictGetD c.g.input_map node.transmuter.hash_out []).foldl
    (fun q t =>
      if vtHasKey ivis t (some node.variations) then q
      else if decide (t.var_hash_in ⊆ node.variations) then
        let _variations := (node.variations \ t.var_hash_in) ∪ t.var_hash_out
        heappush nodeLt q
          (Node.mk (pyfAddInt node.cost (pyfDiv t.cost ((t.var_hash_in.card : Int) + 1)))
            (node.cost + t.cost) t (some node) (node.variations \ t.var_hash_in))
      else q)
    rest
  { st with in_queue := q, in_visited := ivis }

/-- Backward record-and-relax, symmetric to `fwdExpand`; here the computed
`variations` (obligation minus provided plus required) is the pushed state. -/
def bwdExpand (c : Ctx) (st : SState) (node : Node) (rest : List Node) : SState :=
  let ovis := vtInsert st.out_visited node.transmuter (parentKey node) node
  let q := (dictGetD c.g.output_map node.transmuter.hash_in []).foldl
    (fun q t =>
      if vtHasKey ovis t (some node.variations) then q
      else if decide (t.var_hash_out ⊆ node.variations) then
        heappush nodeLt q
          (Node.mk
            (pyfAddInt node.cost
              (pyfDiv t.cost (((t.var_hash_out ∩ node.variations).card : Int) + 1)))
            (node.cost + t.cost) t (some node)
            ((node.variations \ t.var_hash_out) ∪ t.var_hash_in))
      else q)
    rest
  { st with out_queue := q, out_visited := ovis }

inductive SearchResult where
  | noTransIn
  | noTransOut
  | chain (ts : List Transmuter)
  | outOfFuel
deriving DecidableEq

/-- A ghost trace event: one record-and-relax expansion
`(is_forward, transmuter, visited key)`. -/
abbrev Ev := Bool × Transmuter × VKey

/-- The result of one iteration of the `while` loop of `_search`: either a
`return` with a result, or the state for the next iteration (with a ghost
trace event when an expansion was performed). -/
inductive StepOut where
  | done (r : SearchResult)
  | next (st : SState) (ev : Option Ev)

/-- One iteration of the `while in_queue or out_queue` loop of `_search`
(lines 281-407): pick a direction, pop, and either return a chain or expand. -/
def searchStep (c : Ctx) (st : SState) : StepOut :=
  if st.in_queue.isEmpty && st.out_queue.isEmpty then .done (.chain [])
  else if (!st.in_queue.isEmpty &&
        decide (st.in_queue.length < st.out_queue.length)) ||
      st.out_queue.isEmpty then
    -- Search forwards
    match heappop nodeLt st.in_queue with
    | none => .done (.chain [])
    | some (node, rest) =>
      if node.transmuter ∈ c.ignore then .next { st with in_queue := rest } none
      else if node.transmuter.hash_out = c.outHash ∧ c.outVars ⊆ node.variations then
        .done (.chain (fwdChain node))
      else
        match findMeetF c st node with
        | some m => .done (.chain (spliceChain node m))
        | none =>
          .next (fwdExpand c st node rest)
            (some (true, node.transmuter, parentKey node))
  else
    -- Search backwards
    match heappop nodeLt st.out_queue with
    | none => .done (.chain [])
    | some (node, rest) =>
      if node.transmuter ∈ c.ignore then .next { st with out_queue := rest } none
      else if node.transmuter.hash_in = c.inHash ∧ node.variations ⊆ c.inVars then
        .done (.chain (bwdChain node))
      else
        match findMeetB c st node with
        | some m => .done (.chain (spliceChain m node))
        | none =>
          .next (bwdExpand c st node rest)
            (some (false, node.transmuter, parentKey node))

/-- The `while in_queue or out_queue` loop of `_search`, with explicit fuel
and a ghost trace of the expansions performed (the trace does not influence
the result). -/
def searchLoop (c : Ctx) : Nat → SState → SearchResult × List Ev
  | 0, _ => (.outOfFuel, [])
  | fuel + 1, st =>
    match searchStep c st with
    | .done r => (r, [])
    | .next st' ev =>
      let r := searchLoop c fuel st'
      (r.1, match ev with
        | some e => e :: r.2
        | none => r.2)

/-- The forward seed queue of `_search` (lines 244-254): every edge out of
the source hash whose requirements the source tags satisfy. -/
def inSeedsOf (g : Grimoire) (inHash : Int) (inVars : Finset Int) : List Node :=
  (dictGetD g.input_map inHash []).filterMap
    (fun t =>
      if decide (t.var_hash_in ⊆ inVars) then
        some (Node.mk (pyfDiv t.cost ((t.var_hash_in.card : Int) + 1)) t.cost t none
          ((inVars \ t.var_hash_in) ∪ t.var_hash_out))
      else none)

/-- The backward seed queue of `_search` (lines 259-268): every edge into the
destination hash. -/
def outSeedsOf (g : Grimoire) (outHash : Int) (outVars : Finset Int) : List Node :=
  (dictGetD g.output_map outHash []).map
    (fun t =>
      Node.mk (pyfDiv t.cost (((outVars ∩ t.var_hash_out).card : Int) + 1)) t.cost t
        none ((outVars \ t.var_hash_out) ∪ t.var_hash_in))

/-- Modelled from the spec: step 4 of the spec's forward and backward
expansions keys the visited table by `(edge, parent state or null)` and, "if
already present, skip"s the record-and-relax of a popped node whose key is
already visited.  This variant of `searchStep` differs from the code's step
only in that skip; goal and meet checks still precede it, as in the spec. -/
def searchSpecStep (c : Ctx) (st : SState) : StepOut :=
  if st.in_queue.isEmpty && st.out_queue.isEmpty then .done (.chain [])
  else if (!st.in_queue.isEmpty &&
        decide (st.in_queue.length < st.out_queue.length)) ||
      st.out_queue.isEmpty then
    match heappop nodeLt st.in_queue with
    | none => .done (.chain [])
    | some (node, rest) =>
      if node.transmuter ∈ c.ignore then .next { st with in_queue := rest } none
      else if node.transmuter.hash_out = c.outHash ∧ c.outVars ⊆ node.variations then
        .done (.chain (fwdChain node))
      else
        match findMeetF c st node with
        | some m => .done (.chain (spliceChain node m))
        | none =>
          if vtHasKey st.in_visited node.transmuter (parentKey node) then
            .next { st with in_queue := rest } none
          else
            .next (fwdExpand c st node rest)
              (some (true, node.transmuter, parentKey node))
  else
    match heappop nodeLt st.out_queue with
    | none => .done (.chain [])
    | some (node, rest) =>
      if node.transmuter ∈ c.ignore then .next { st with out_queue := rest } none
      else if node.transmuter.hash_in = c.inHash ∧ node.variations ⊆ c.inVars then
        .done (.chain (bwdChain node))
      else
        match findMeetB c st node with
        | some m => .done (.chain (spliceChain m node))
        | none =>
          if vtHasKey st.out_visited node.transmuter (parentKey node) then
            .next { st with out_queue := rest } none
          else
            .next (bwdExpand c st node rest)
              (some (false, node.transmuter, parentKey node))

/-- The search loop of the spec's algorithm (with the visited skip). -/
def searchSpecLoop (c : Ctx) : Nat → SState → SearchResult × List Ev
  | 0, _ => (.outOfFuel, [])
  | fuel + 1, st =>
    match searchSpecStep c st with
    | .done r => (r, [])
    | .next st' ev =>
      let r := searchSpecLoop c fuel st'
      (r.1, match ev with
        | some e => e :: r.2
        | none => r.2)

/-- `_search` after the hashing of its arguments (lines 239-242): build the
seed queues, check the two `NoTransmuterError` preconditions, then run the
loop. -/
def searchHashed (g : Grimoire) (inHash : Int) (inVars : Finset Int)
    (outHash : Int) (outVars : Finset Int) (ignore : List Transmuter)
    (fuel : Nat) : SearchResult × List Ev :=
  if (inSeedsOf g inHash inVars).isEmpty then (.noTransIn, [])
  else if (outSeedsOf g outHash outVars).isEmpty then (.noTransOut, [])
  else searchLoop ⟨g, inHash, outHash, inVars, outVars, ignore⟩ fuel
    ⟨inSeedsOf g inHash inVars, outSeedsOf g outHash outVars, [], []⟩

/-- Modelled from the spec: the spec's search algorithm with the visited
skip, over the same seeds and preconditions as `searchHashed`. -/
def searchSpecHashed (g : Grimoire) (inHash : Int) (inVars : Finset Int)
    (outHash : Int) (outVars : Finset Int) (ignore : List Transmuter)
    (fuel : Nat) : SearchResult × List Ev :=
  if (inSeedsOf g inHash inVars).isEmpty then (.noTransIn, [])
  else if (outSeedsOf g outHash outVars).isEmpty then (.noTransOut, [])
  else searchSpecLoop ⟨g, inHash, outHash, inVars, outVars, ignore⟩ fuel
    ⟨inSeedsOf g inHash inVars, outSeedsOf g outHash outVars, [], []⟩

/-- Hash a tag sequence into a frozenset of hashes. -/
def hashTags (l : List Obj) : Finset Int := (l.map pyHash).toFinset

/-- `Grimoire._search`: hash the category and tag arguments, then search. -/
def search (g : Grimoire) (type_in : Obj) (variations_in : List Obj)
    (type_out : Obj) (variations_out : List Obj) (ignore : List Transmuter)
    (fuel : Nat) : SearchResult × List Ev :=
  searchHashed g (pyHash type_in) (hashTags variations_in) (pyHash type_out)
    (hashTags variations_out) ignore fuel

/-! ## The executor and coordinator (`Grimoire.transmute`) -/

/-- An error record `(type(err).__name__, str(err), format_exc())` captured
from a failing edge function. -/
abbrev ErrRec := String × String × String

/-- The semantics of the registered edge functions: a function identity plus
an input value yields an output value, or raises. -/
abbrev FnSem (α : Type) := Nat → α → Except ErrRec α

/-- The semantics of the registered detector functions: a detector identity
plus the input value yields the detected variations. -/
abbrev DetSem (α : Type) := Nat → α → List Obj

/-- Run the detectors registered for `type_have` over the value, concatenating
their outputs in registration order (lines 182-186). -/
def detect (g : Grimoire) (dsem : DetSem α) (type_have : Obj) (value : α) :
    List Obj :=
  let ds := match g.detector_maps.find? (fun p => decide (p.1 = type_have)) with
    | some p => p.2
    | none => []
  ds.flatMap (fun d => dsem d value)

/-- The execution loop `for transmuter in transmuters: result = ...` with the
Python loop variable: on a raise, the failing transmuter is reported. -/
def runChainGo (sem : FnSem α) (value : α) :
    List Transmuter → Except (ErrRec × Transmuter) α
  | [] => .ok value
  | t :: rest =>
    match sem t.function value with
    | .ok v => runChainGo sem v rest
    | .error e => .error (e, t)

/-- The externally visible outcome of a `transmute` call: the result value or
one of the raised errors (`NoTransmuterError` carrying the offending category,
`NoChainError`, `ExecutionError` bundling the recorded failures), or fuel
exhaustion of the embedded search loop. -/
inductive Outcome (α : Type) where
  | ok (v : α)
  | noTransIn (type_in : Obj)
  | noTransOut (type_out : Obj)
  | noChain (type_have type_want : Obj)
  | execFail (errors : List ErrRec)
  | outOfFuel

/-- `set.add` on the banned-transmuter set, modelled membership-wise. -/
def insertT (t : Transmuter) (l : List Transmuter) : List Transmuter :=
  if t ∈ l then l else t :: l

/-- The retry loop `for _ in range(10)` of `transmute` (lines 191-226), with
the retry budget as the `fuel` argument and a ghost count of the
plan-and-execute attempts made.  Falling out of the loop raises
`ExecutionError` bundling the recorded errors. -/
def transmuteLoop (g : Grimoire) (sem : FnSem α) (value : α) (type_have : Obj)
    (vh : List Obj) (type_want : Obj) (vw : List Obj) :
    List Transmuter → List ErrRec → Nat → Nat → Outcome α × Nat
  | _, errors, 0, _ => (.execFail errors, 0)
  | ignore, errors, fuel + 1, sfuel =>
    match (search g type_have vh type_want vw ignore sfuel).1 with
    | .noTransIn => (.noTransIn type_have, 1)
    | .noTransOut => (.noTransOut type_want, 1)
    | .outOfFuel => (.outOfFuel, 1)
    | .chain ts =>
      if ts.isEmpty then
        if errors.isEmpty then (.noChain type_have type_want, 1)
        else (.execFail errors, 1)
      else
        match runChainGo sem value ts with
        | .ok v => (.ok v, 1)
        | .error (e, t) =>
          let r := transmuteLoop g sem value type_have vh type_want vw
            (insertT t ignore) (errors ++ [e]) fuel sfuel
          (r.1, r.2 + 1)

/-- The merge of the explicit and detected variations (lines 181-187): when
`explicit` is set the detectors are not consulted. -/
def mergedVariations (g : Grimoire) (dsem : DetSem α) (type_have : Obj)
    (value : α) (variations_have : List Obj) (explicit : Bool) : List Obj :=
  if explicit then variations_have
  else variations_have ++ detect g dsem type_have value

/-- `Grimoire.transmute` with an explicitly supplied starting category
(`type_have`; the Python default `type(value)` is host-supplied).  Merges the
explicit and detected variations unless `explicit` is set, then runs the
bounded plan-and-execute loop.  Returns the outcome and the ghost attempt
count. -/
def transmuteT (g : Grimoire) (sem : FnSem α) (dsem : DetSem α) (value : α)
    (type_want : Obj) (variations_want : List Obj) (type_have : Obj)
    (variations_have : List Obj) (explicit : Bool) (sfuel : Nat) :
    Outcome α × Nat :=
  transmuteLoop g sem value type_have
    (mergedVariations g dsem type_have value variations_have explicit)
    type_want variations_want [] [] 10 sfuel

/-- `Grimoire.transmute`, outcome only. -/
def transmute (g : Grimoire) (sem : FnSem α) (dsem : DetSem α) (value : α)
    (type_want : Obj) (variations_want : List Obj) (type_have : Obj)
    (variations_have : List Obj) (explicit : Bool) (sfuel : Nat) : Outcome α :=
  (transmuteT g sem dsem value type_want variations_want type_have
    variations_have explicit sfuel).1

/-! ## Predicates used by the claims -/

/-- The tag-state firing rule of the spec: `S' = (S \ e.req_in) ∪ e.prov_out`. -/
def fireState (s : Finset Int) (t : Transmuter) : Finset Int :=
  (s \ t.var_hash_in) ∪ t.var_hash_out

/-- The final tag state after firing a chain from state `s`. -/
def finalState (s : Finset Int) (l : List Transmuter) : Finset Int :=
  l.foldl fireState s

/-- Dependency safety of a chain from state `s`: every edge's `req_in` is
contained in the state holding when it fires. -/
def depSafeFromB (s : Finset Int) : List Transmuter → Bool
  | [] => true
  | t :: rest => decide (t.var_hash_in ⊆ s) && depSafeFromB (fireState s t) rest

/-- Property P1 of the spec for a chain: dependency safety from `src` and
`dst ⊆ Sₙ` after the last edge. -/
def chainSafeB (src dst : Finset Int) (l : List Transmuter) : Bool :=
  depSafeFromB src l && decide (dst ⊆ finalState src l)

/-- Whether a `transmute` outcome is the `NoTransmuterError` raise. -/
def isNoTransmuter : Outcome α → Bool
  | .noTransIn _ => true
  | .noTransOut _ => true
  | _ => false

/-- The precondition under which `_search` raises `NoTransmuterError`: no
edge under the source hash whose requirements the source tags meet, or no
edge at all under the destination hash. -/
def NoTransCond (g : Grimoire) (ih : Int) (iv : Finset Int) (oh : Int) : Prop :=
  (∀ t ∈ dictGetD g.input_map ih [], ¬ t.var_hash_in ⊆ iv) ∨
    dictGetD g.output_map oh [] = []

/-- Registry well-formedness: every edge stored under a hash key of the
by-input (by-output) map has that hash as its input (output) hash.  This
holds for every `Grimoire` built by `inscribe_transmutation`. -/
def WFGrim (g : Grimoire) : Prop :=
  (∀ p ∈ g.input_map, ∀ t ∈ p.2, t.hash_in = p.1) ∧
    (∀ p ∈ g.output_map, ∀ t ∈ p.2, t.hash_out = p.1)

/-- The edge occurs somewhere in the registry's maps. -/
def EdgeReg (g : Grimoire) (t : Transmuter) : Prop :=
  (∃ p ∈ g.input_map, t ∈ p.2) ∨ (∃ p ∈ g.output_map, t ∈ p.2)

/-- Invariant of a forward search node: its chain of parents starts (at the
root) in the source hash, consecutive links agree, and every walked edge is
registered. -/
def FwdInv (g : Grimoire) (ih : Int) : Node → Prop
  | .mk _ _ t none _ => t.hash_in = ih ∧ EdgeReg g t
  | .mk _ _ t (some p) _ =>
    t.hash_in = p.transmuter.hash_out ∧ EdgeReg g t ∧ FwdInv g ih p

/-- Invariant of a backward search node: its chain of parents ends (at the
root) in the destination hash, consecutive links agree, and every walked
edge is registered. -/
def BwdInv (g : Grimoire) (oh : Int) : Node → Prop
  | .mk _ _ t none _ => t.hash_out = oh ∧ EdgeReg g t
  | .mk _ _ t (some p) _ =>
    t.hash_out = p.transmuter.hash_in ∧ EdgeReg g t ∧ BwdInv g oh p

/-- Membership of a node in a visited table under a given transmuter key. -/
def VTEntry (vt : VTable) (t : Transmuter) (n : Node) : Prop :=
  ∃ pr ∈ vt, pr.1 = t ∧ ∃ e ∈ pr.2, e.2 = n

/-- The invariant the search loop maintains over its state. -/
structure SInv (c : Ctx) (st : SState) : Prop where
  inQ : ∀ n ∈ st.in_queue, FwdInv c.g c.inHash n
  outQ : ∀ n ∈ st.out_queue, BwdInv c.g c.outHash n
  inV : ∀ t n, VTEntry st.in_visited t n → n.transmuter = t ∧ FwdInv c.g c.inHash n
  outV : ∀ t n, VTEntry st.out_visited t n → n.transmuter = t ∧ BwdInv c.g c.outHash n

/-- What claims P2 and the no-identity claim need of a non-empty returned
chain: endpoint hashes, categorical connectivity, and registered edges. -/
def GoodChain (g : Grimoire) (ih oh : Int) (l : List Transmuter) : Prop :=
  l ≠ [] ∧ (∃ hd, l.head? = some hd ∧ hd.hash_in = ih) ∧
    (∃ lst, l.getLast? = some lst ∧ lst.hash_out = oh) ∧
    List.Chain' (fun a b => a.hash_out = b.hash_in) l ∧ ∀ t ∈ l, EdgeReg g t

instance (g : Grimoire) : Decidable (WFGrim g) := by
  unfold WFGrim
  infer_instance

instance (g : Grimoire) (ih : Int) (iv : Finset Int) (oh : Int) :
    Decidable (NoTransCond g ih iv oh) := by
  unfold NoTransCond
  infer_instance

instance (g : Grimoire) (t : Transmuter) : Decidable (EdgeReg g t) := by
  unfold EdgeReg
  infer_instance

/-! ## Registration sequences -/

/-- One `inscribe_transmutation` call's arguments. -/
structure RegEntry where
  cost : Int
  type_in : Obj
  variations_in : List Obj
  type_out : Obj
  variations_out : List Obj
  function : Nat

/-- The `Transmuter` an entry registers. -/
def regTrans (r : RegEntry) : Transmuter :=
  ⟨r.cost, pyHash r.type_in, pyHash r.type_out, (r.variations_in.map pyHash).toFinset,
    (r.variations_out.map pyHash).toFinset, r.function⟩

/-- The registry after a sequence of `inscribe_transmutation` calls. -/
def buildG (regs : List RegEntry) : Grimoire :=
  regs.foldl
    (fun g r =>
      inscribe_transmutation g r.cost r.type_in r.variations_in r.type_out
        r.variations_out r.function)
    Grimoire.empty

/-! ## Concrete scenarios -/

def catA : Obj := (0, 0)
def catB : Obj := (1, 0)
def catC : Obj := (2, 0)
def catD : Obj := (3, 0)
def catE : Obj := (4, 0)
def catF : Obj := (5, 0)
def catG : Obj := (6, 0)
def catK1 : Obj := (11, 0)
def catK2 : Obj := (12, 0)
def tagVar : Obj := (100, 0)

/-- A detector semantics yielding nothing (no detectors are registered in the
concrete scenarios). -/
def dsemNone : DetSem String := fun _ _ => []

/-- Scenario of test_basic_variation / the third `__main__` demo:
`A = B = C'` with `C→B` providing the tag `var`. -/
def gBasicVar : Grimoire :=
  let g := Grimoire.empty
  let g := inscribe_transmutation g 1 catA [] catB [] 1
  let g := inscribe_transmutation g 1 catB [] catA [] 2
  let g := inscribe_transmutation g 1 catB [] catC [] 3
  let g := inscribe_transmutation g 1 catC [] catB [tagVar] 4
  g

def tAtoB : Transmuter := ⟨1, 0, 1, ∅, ∅, 1⟩
def tBtoA : Transmuter := ⟨1, 1, 0, ∅, ∅, 2⟩
def tBtoC : Transmuter := ⟨1, 1, 2, ∅, ∅, 3⟩
def tCtoB : Transmuter := ⟨1, 2, 1, ∅, {100}, 4⟩

/-- The edge functions of the scenario: each appends its label, the
tag-providing one with the `:var` suffix. -/
def semBasicVar : FnSem String := fun id v =>
  match id with
  | 1 => .ok (v ++ " -> AtoB")
  | 2 => .ok (v ++ " -> BtoA")
  | 3 => .ok (v ++ " -> BtoC")
  | 4 => .ok (v ++ " -> CtoB:var")
  | _ => .error ("RuntimeError", "unknown function", "")

/-- Registry refuting dependency safety: `A→B` provides `var`, `B→C`
consumes it, `C→D` requires it again. -/
def gConsumed : Grimoire :=
  let g := Grimoire.empty
  let g := inscribe_transmutation g 1 catA [] catB [tagVar] 1
  let g := inscribe_transmutation g 1 catB [tagVar] catC [] 2
  let g := inscribe_transmutation g 1 catC [tagVar] catD [] 3
  g

def tSupply : Transmuter := ⟨1, 0, 1, ∅, {100}, 1⟩
def tSpend : Transmuter := ⟨1, 1, 2, {100}, ∅, 2⟩
def tNeed : Transmuter := ⟨1, 2, 3, {100}, ∅, 3⟩

/-- Three same-category registrations with descending costs 3, 2, 1: the
stored list ends up in heap layout `[1, 3, 2]`, not sorted. -/
def gCosts : Grimoire :=
  let g := Grimoire.empty
  let g := inscribe_transmutation g 3 catA [] catB [] 1
  let g := inscribe_transmutation g 2 catA [] catB [] 2
  let g := inscribe_transmutation g 1 catA [] catB [] 3
  g

def tCost3 : Transmuter := ⟨3, 0, 1, ∅, ∅, 1⟩
def tCost2 : Transmuter := ⟨2, 0, 1, ∅, ∅, 2⟩
def tCost1 : Transmuter := ⟨1, 0, 1, ∅, ∅, 3⟩

/-- A diamond `A→{B,C}→D→E→G` plus two dead edges into `G`: the two routes
to `D` give the `D→E` edge two pushes under the same visited key, so the
forward search pops and expands that key twice. -/
def gDiamond : Grimoire :=
  let g := Grimoire.empty
  let g := inscribe_transmutation g 1 catA [] catB [] 1
  let g := inscribe_transmutation g 1 catA [] catC [] 2
  let g := inscribe_transmutation g 1 catB [] catD [] 3
  let g := inscribe_transmutation g 1 catC [] catD [] 4
  let g := inscribe_transmutation g 1 catD [] catE [] 5
  let g := inscribe_transmutation g 1 catE [] catG [] 6
  let g := inscribe_transmutation g 1 catK1 [] catG [] 7
  let g := inscribe_transmutation g 1 catK2 [] catG [] 8
  g

def tDiaAB : Transmuter := ⟨1, 0, 1, ∅, ∅, 1⟩
def tDiaBD : Transmuter := ⟨1, 1, 3, ∅, ∅, 3⟩
def tDiaDE : Transmuter := ⟨1, 3, 4, ∅, ∅, 5⟩
def tDiaEG : Transmuter := ⟨1, 4, 6, ∅, ∅, 6⟩

/-- The test_failures registry: `A→B`, `C→D`, `E'(req var)→F`, `F→G` whose
function raises. -/
def gFail : Grimoire :=
  let g := Grimoire.empty
  let g := inscribe_transmutation g 1 catA [] catB [] 1
  let g := inscribe_transmutation g 1 catC [] catD [] 2
  let g := inscribe_transmutation g 1 catE [tagVar] catF [] 3
  let g := inscribe_transmutation g 1 catF [] catG [] 4
  g

def tFtoG : Transmuter := ⟨1, 5, 6, ∅, ∅, 4⟩

/-- The edge functions of the failure scenario; function 4 raises. -/
def semFail : FnSem String := fun id v =>
  match id with
  | 1 => .ok (v ++ " -> AtoB")
  | 2 => .ok (v ++ " -> CtoD")
  | 3 => .ok (v ++ " -> EtoF:var")
  | 4 => .error ("RuntimeError", "BAD STUFF", "")
  | _ => .error ("RuntimeError", "unknown function", "")

/-! # Lemmas and theorems

## Permutation lemmas for the heap operations -/

theorem set_perm (l : List α) (i : Nat) (h : i < l.length) (a : α) :
    List.Perm (l.get ⟨i, h⟩ :: l.set i a) (a :: l) := by
  induction l generalizing i with
  | nil => simp at h
  | cons x xs ih =>
    cases i with
    | zero => exact List.Perm.swap a x xs
    | succ i =>
      have hi : i < xs.length := by simpa using h
      simp only [List.get, List.set]
      exact ((List.Perm.swap x (xs.get ⟨i, hi⟩) (xs.set i a)).trans
        ((ih i hi).cons x)).trans (List.Perm.swap a x xs)

theorem siftdown_perm (lt : α → α → Bool) :
    ∀ (fuel : Nat) (heap : List α) (x : α) (pos : Nat) (h : pos < heap.length),
      List.Perm (heap.get ⟨pos, h⟩ :: siftdownRec lt fuel heap x pos) (x :: heap) := by
  intro fuel
  induction fuel with
  | zero =>
    intro heap x pos h
    simpa [siftdownRec] using set_perm heap pos h x
  | succ fuel ih =>
    intro heap x pos h
    cases pos with
    | zero => simpa [siftdownRec] using set_perm heap 0 h x
    | succ pp =>
      have hpar : pp / 2 < heap.length := by omega
      have hsome : heap[pp / 2]? = some (heap.get ⟨pp / 2, hpar⟩) := by
        simp [List.getElem?_eq_getElem hpar]
      simp only [siftdownRec, hsome]
      by_cases hlt : lt x (heap.get ⟨pp / 2, hpar⟩)
      · simp only [hlt, if_true]
        have hlen : pp / 2 < (heap.set (pp + 1) (heap.get ⟨pp / 2, hpar⟩)).length := by
          simpa using hpar
        have hget : (heap.set (pp + 1) (heap.get ⟨pp / 2, hpar⟩)).get ⟨pp / 2, hlen⟩ =
            heap.get ⟨pp / 2, hpar⟩ := by
          simp only [List.get_eq_getElem]
          rw [List.getElem_set_of_ne (by omega)]
        have h1 := ih (heap.set (pp + 1) (heap.get ⟨pp / 2, hpar⟩)) x (pp / 2) hlen
        rw [hget] at h1
        have h2 := set_perm heap (pp + 1) h (heap.get ⟨pp / 2, hpar⟩)
        -- cancel the parent element from a combined permutation chain
        refine List.Perm.cons_inv (a := heap.get ⟨pp / 2, hpar⟩) ?_
        exact (List.Perm.swap _ _ _).trans ((h1.cons _).trans
          ((List.Perm.swap _ _ _).trans ((h2.cons _).trans (List.Perm.swap _ _ _))))
      · simp only [hlt, if_false]
        exact set_perm heap (pp + 1) h x

theorem heappush_perm (lt : α → α → Bool) (l : List α) (x : α) :
    List.Perm (heappush lt l x) (x :: l) := by
  have h : l.length < (l ++ [x]).length := by simp
  have hx := siftdown_perm lt l.length (l ++ [x]) x l.length h
  have hget : (l ++ [x]).get ⟨l.length, h⟩ = x := by
    simp only [List.get_eq_getElem]
    rw [List.getElem_append_right (by omega)]
    simp
  rw [hget] at hx
  have h2 := hx.cons_inv
  have h3 : List.Perm (l ++ [x]) (x :: l) := List.perm_append_comm
  rw [heappush]
  exact h2.trans h3

theorem sift_helper (lt : α → α → Bool) (f : Nat) (heap : List α) (x : α) (pos : Nat)
    (h : pos < heap.length) :
    List.Perm (heap.get ⟨pos, h⟩ :: siftdownRec lt f (heap.set pos x) x pos) (x :: heap) := by
  have h1 := siftdown_perm lt f (heap.set pos x) x pos (by simpa using h)
  have hget : (heap.set pos x).get ⟨pos, by simpa using h⟩ = x := by
    simp only [List.get_eq_getElem]
    rw [List.getElem_set_self]
  rw [hget] at h1
  exact (h1.cons_inv.cons (heap.get ⟨pos, h⟩)).trans (set_perm heap pos h x)

theorem siftup_step_perm (lt : α → α → Bool) (fuel : Nat) (heap : List α) (x child : α)
    (pos cpos : Nat) (h : pos < heap.length) (hcp : pos < cpos)
    (hc : heap[cpos]? = some child)
    (ih : ∀ (heap : List α) (x : α) (pos : Nat) (h : pos < heap.length),
      List.Perm (heap.get ⟨pos, h⟩ :: siftupRec lt heap x pos fuel) (x :: heap)) :
    List.Perm (heap.get ⟨pos, h⟩ :: siftupRec lt (heap.set pos child) x cpos fuel)
      (x :: heap) := by
  have hclen : cpos < heap.length := by
    by_contra hge
    rw [List.getElem?_eq_none (by omega)] at hc
    exact Option.noConfusion hc
  have hchild : heap.get ⟨cpos, hclen⟩ = child := by
    rw [List.getElem?_eq_getElem hclen] at hc
    simpa using hc
  have hlen : cpos < (heap.set pos child).length := by simpa using hclen
  have hget : (heap.set pos child).get ⟨cpos, hlen⟩ = child := by
    simp only [List.get_eq_getElem]
    rw [List.getElem_set_of_ne (by omega)]
    simpa using hchild
  have h1 := ih (heap.set pos child) x cpos hlen
  rw [hget] at h1
  have h2 := set_perm heap pos h child
  refine List.Perm.cons_inv (a := child) ?_
  exact (List.Perm.swap _ _ _).trans ((h1.cons _).trans
    ((List.Perm.swap _ _ _).trans ((h2.cons _).trans (List.Perm.swap _ _ _))))

theorem siftup_perm (lt : α → α → Bool) :
    ∀ (fuel : Nat) (heap : List α) (x : α) (pos : Nat) (h : pos < heap.length),
      List.Perm (heap.get ⟨pos, h⟩ :: siftupRec lt heap x pos fuel) (x :: heap) := by
  intro fuel
  induction fuel with
  | zero =>
    intro heap x pos h
    simp only [siftupRec]
    exact sift_helper lt pos heap x pos h
  | succ fuel ih =>
    intro heap x pos h
    cases hc1 : heap[2 * pos + 1]? with
    | none =>
      simp only [siftupRec, hc1]
      exact sift_helper lt pos heap x pos h
    | some left =>
      cases hc2 : heap[2 * pos + 1 + 1]? with
      | none =>
        simp only [siftupRec, hc1, hc2]
        exact siftup_step_perm lt fuel heap x left pos (2 * pos + 1) h (by omega) hc1 ih
      | some right =>
        cases hlr : lt left right with
        | true =>
          simp only [siftupRec, hc1, hc2, hlr, if_true]
          exact siftup_step_perm lt fuel heap x left pos (2 * pos + 1) h (by omega) hc1 ih
        | false =>
          simp only [siftupRec, hc1, hc2, hlr, Bool.false_eq_true, if_false]
          exact siftup_step_perm lt fuel heap x right pos (2 * pos + 1 + 1) h (by omega)
            hc2 ih

theorem heappop_perm (lt : α → α → Bool) (l rest : List α) (x : α)
    (h : heappop lt l = some (x, rest)) : List.Perm l (x :: rest) := by
  match l with
  | [] => exact Option.noConfusion h
  | y :: ys =>
    rw [heappop] at h
    rcases hd : (y :: ys).dropLast with _ | ⟨r0, rrest⟩ <;> rw [hd] at h <;>
      simp only [Option.some.injEq, Prod.mk.injEq] at h
    · obtain ⟨hx, hrest⟩ := h
      have hys : ys = [] := by
        have hlen := congrArg List.length hd
        simpa using hlen
      subst hys
      subst hrest
      rw [← hx]
      simp [List.getLast]
    · obtain ⟨hx, hrest⟩ := h
      subst hx
      have h0 : 0 < ((r0 :: rrest).set 0 ((y :: ys).getLast (by simp))).length := by simp
      have hperm := siftup_perm lt (r0 :: rrest).length
        ((r0 :: rrest).set 0 ((y :: ys).getLast (by simp)))
        ((y :: ys).getLast (by simp)) 0 h0
      have hget : ((r0 :: rrest).set 0 ((y :: ys).getLast (by simp))).get ⟨0, h0⟩ =
          (y :: ys).getLast (by simp) := rfl
      rw [hget] at hperm
      have h1 := hperm.cons_inv
      have h2 : List.Perm ((r0 :: rrest).set 0 ((y :: ys).getLast (by simp))) rest := by
        rw [← hrest]
        exact h1.symm
      have hset := set_perm (r0 :: rrest) 0 (by simp) ((y :: ys).getLast (by simp))
      have hsplit : (r0 :: rrest) ++ [(y :: ys).getLast (by simp)] = y :: ys := by
        rw [← hd]
        exact List.dropLast_append_getLast (by simp)
      have happ : List.Perm ((r0 :: rrest) ++ [(y :: ys).getLast (by simp)])
          ((y :: ys).getLast (by simp) :: r0 :: rrest) := List.perm_append_comm
      exact (hsplit ▸ (happ.trans hset.symm)).trans (h2.cons r0)

/-! ## Membership corollaries and dictionary lemmas -/

theorem mem_heappush (lt : α → α → Bool) (l : List α) (x a : α)
    (h : a ∈ heappush lt l x) : a = x ∨ a ∈ l := by
  have := (heappush_perm lt l x).mem_iff.mp h
  simpa using this

theorem heappop_mem (lt : α → α → Bool) (l rest : List α) (x : α)
    (h : heappop lt l = some (x, rest)) : x ∈ l ∧ ∀ a ∈ rest, a ∈ l := by
  have hp := heappop_perm lt l rest x h
  exact ⟨hp.mem_iff.mpr (by simp), fun a ha => hp.mem_iff.mpr (by simp [ha])⟩

theorem dictGetD_cons (k' : Int) (v : List Transmuter) (rest : HDict) (k : Int)
    (dflt : List Transmuter) :
    dictGetD ((k', v) :: rest) k dflt = if k' = k then v else dictGetD rest k dflt := by
  by_cases h : k' = k <;> simp [dictGetD, List.find?, h]

theorem dictGetD_upd (d : HDict) (k k' : Int) (f : List Transmuter → List Transmuter) :
    dictGetD (dictUpd d k f) k' [] =
      if k = k' then f (dictGetD d k []) else dictGetD d k' [] := by
  induction d with
  | nil =>
    by_cases h : k = k' <;> simp [dictUpd, dictGetD_cons, dictGetD, h]
  | cons p rest ih =>
    obtain ⟨a, v⟩ := p
    simp only [dictUpd]
    by_cases ha : a = k
    · subst ha
      simp only [if_pos rfl]
      by_cases h : a = k'
      · subst h
        simp [dictGetD_cons]
      · simp [dictGetD_cons, h]
    · simp only [if_neg ha]
      rw [dictGetD_cons, dictGetD_cons, ih]
      by_cases h2 : a = k'
      · subst h2
        have hk : ¬ k = a := fun hk => ha hk.symm
        simp [hk, dictGetD_cons]
      · by_cases hkk : k = k'
        · simp [hkk, h2, ha, dictGetD_cons]
        · simp [hkk, h2, dictGetD_cons]

theorem mem_dictGetD (d : HDict) (k : Int) (t : Transmuter)
    (h : t ∈ dictGetD d k []) : ∃ p ∈ d, p.1 = k ∧ t ∈ p.2 := by
  unfold dictGetD at h
  rcases hf : d.find? (fun p => decide (p.1 = k)) with _ | p
  · rw [hf] at h
    simp at h
  · rw [hf] at h
    refine ⟨p, List.mem_of_find?_eq_some hf, ?_, h⟩
    have := List.find?_some hf
    simpa using this

theorem wf_dictGetD_in (g : Grimoire) (hwf : WFGrim g) (k : Int) (t : Transmuter)
    (h : t ∈ dictGetD g.input_map k []) : t.hash_in = k ∧ EdgeReg g t := by
  obtain ⟨p, hp, hk, ht⟩ := mem_dictGetD g.input_map k t h
  exact ⟨hk ▸ hwf.1 p hp t ht, Or.inl ⟨p, hp, ht⟩⟩

theorem wf_dictGetD_out (g : Grimoire) (hwf : WFGrim g) (k : Int) (t : Transmuter)
    (h : t ∈ dictGetD g.output_map k []) : t.hash_out = k ∧ EdgeReg g t := by
  obtain ⟨p, hp, hk, ht⟩ := mem_dictGetD g.output_map k t h
  exact ⟨hk ▸ hwf.2 p hp t ht, Or.inr ⟨p, hp, ht⟩⟩

/-! ## Registration lemmas -/

theorem input_map_inscribe (g : Grimoire) (cost : Int) (ti : Obj) (vi : List Obj)
    (to_ : Obj) (vo : List Obj) (fn : Nat) (cat : Int) :
    dictGetD (inscribe_transmutation g cost ti vi to_ vo fn).input_map cat [] =
      if pyHash ti = cat then
        heappush transLt (dictGetD g.input_map cat [])
          ⟨cost, pyHash ti, pyHash to_, (vi.map pyHash).toFinset,
            (vo.map pyHash).toFinset, fn⟩
      else dictGetD g.input_map cat [] := by
  by_cases h : pyHash ti = cat <;> simp [inscribe_transmutation, dictGetD_upd, h]

theorem output_map_inscribe (g : Grimoire) (cost : Int) (ti : Obj) (vi : List Obj)
    (to_ : Obj) (vo : List Obj) (fn : Nat) (cat : Int) :
    dictGetD (inscribe_transmutation g cost ti vi to_ vo fn).output_map cat [] =
      if pyHash to_ = cat then
        heappush transLt (dictGetD g.output_map cat [])
          ⟨cost, pyHash ti, pyHash to_, (vi.map pyHash).toFinset,
            (vo.map pyHash).toFinset, fn⟩
      else dictGetD g.output_map cat [] := by
  by_cases h : pyHash to_ = cat <;> simp [inscribe_transmutation, dictGetD_upd, h]

theorem buildG_input_ms :
    ∀ (regs : List RegEntry) (g : Grimoire) (cat : Int),
      ((dictGetD (regs.foldl
          (fun g r =>
            inscribe_transmutation g r.cost r.type_in r.variations_in r.type_out
              r.variations_out r.function)
          g).input_map cat [] : List Transmuter) : Multiset Transmuter) =
        ↑((regs.filter (fun r => decide (pyHash r.type_in = cat))).map regTrans) +
          ↑(dictGetD g.input_map cat []) := by
  intro regs
  induction regs with
  | nil => simp
  | cons r rs ih =>
    intro g cat
    rw [List.foldl_cons, ih]
    by_cases h : pyHash r.type_in = cat
    · rw [List.filter_cons_of_pos (by simpa using h)]
      simp only [List.map_cons, Multiset.cons_coe]
      rw [input_map_inscribe, if_pos h]
      have hp := (heappush_perm transLt (dictGetD g.input_map cat [])
        ⟨r.cost, pyHash r.type_in, pyHash r.type_out,
          (r.variations_in.map pyHash).toFinset,
          (r.variations_out.map pyHash).toFinset, r.function⟩)
      rw [Multiset.coe_eq_coe.mpr hp]
      simp [regTrans, Multiset.cons_coe]
    · rw [List.filter_cons_of_neg (by simpa using h)]
      rw [input_map_inscribe, if_neg h]

theorem buildG_output_ms :
    ∀ (regs : List RegEntry) (g : Grimoire) (cat : Int),
      ((dictGetD (regs.foldl
          (fun g r =>
            inscribe_transmutation g r.cost r.type_in r.variations_in r.type_out
              r.variations_out r.function)
          g).output_map cat [] : List Transmuter) : Multiset Transmuter) =
        ↑((regs.filter (fun r => decide (pyHash r.type_out = cat))).map regTrans) +
          ↑(dictGetD g.output_map cat []) := by
  intro regs
  induction regs with
  | nil => simp
  | cons r rs ih =>
    intro g cat
    rw [List.foldl_cons, ih]
    by_cases h : pyHash r.type_out = cat
    · rw [List.filter_cons_of_pos (by simpa using h)]
      simp only [List.map_cons, Multiset.cons_coe]
      rw [output_map_inscribe, if_pos h]
      have hp := (heappush_perm transLt (dictGetD g.output_map cat [])
        ⟨r.cost, pyHash r.type_in, pyHash r.type_out,
          (r.variations_in.map pyHash).toFinset,
          (r.variations_out.map pyHash).toFinset, r.function⟩)
      rw [Multiset.coe_eq_coe.mpr hp]
      simp [regTrans, Multiset.cons_coe]
    · rw [List.filter_cons_of_neg (by simpa using h)]
      rw [output_map_inscribe, if_neg h]

/-! ## Visited-table lemmas -/

theorem innerUpd_mem (l : List (VKey × Node)) (k : VKey) (n : Node) (e : VKey × Node) :
    e ∈ innerUpd l k n → e = (k, n) ∨ e ∈ l := by
  induction l with
  | nil =>
    intro h
    simpa [innerUpd] using h
  | cons p rest ih =>
    intro h
    obtain ⟨p1, p2⟩ := p
    by_cases hp : p1 = k
    · simp only [innerUpd, if_pos hp] at h
      rcases List.mem_cons.mp h with h | h
      · exact Or.inl h
      · exact Or.inr (List.mem_cons_of_mem _ h)
    · simp only [innerUpd, if_neg hp] at h
      rcases List.mem_cons.mp h with h | h
      · exact Or.inr (h ▸ List.mem_cons_self _ _)
      · rcases ih h with h2 | h2
        · exact Or.inl h2
        · exact Or.inr (List.mem_cons_of_mem _ h2)

theorem vtValues_entry (vt : VTable) (t : Transmuter) (n : Node)
    (h : n ∈ vtValues vt t) : VTEntry vt t n := by
  unfold vtValues vtGet at h
  rcases hf : vt.find? (fun p => decide (p.1 = t)) with _ | p
  · rw [hf] at h
    simp at h
  · rw [hf] at h
    obtain ⟨e, he, hen⟩ := List.mem_map.mp h
    have hpt : p.1 = t := by simpa using List.find?_some hf
    exact ⟨p, List.mem_of_find?_eq_some hf, hpt, e, he, hen⟩

theorem vtInsert_entry (vt : VTable) (t : Transmuter) (k : VKey) (nn : Node)
    (t' : Transmuter) (n' : Node) (h : VTEntry (vtInsert vt t k nn) t' n') :
    (t' = t ∧ n' = nn) ∨ VTEntry vt t' n' := by
  induction vt with
  | nil =>
    obtain ⟨pr, hpr, hpt, e, he, hen⟩ := h
    simp only [vtInsert, List.mem_singleton] at hpr
    subst hpr
    simp only [List.mem_singleton] at he
    subst he
    exact Or.inl ⟨hpt.symm, hen.symm⟩
  | cons p rest ih =>
    obtain ⟨t0, l⟩ := p
    by_cases ht0 : t0 = t
    · subst ht0
      simp only [vtInsert, if_pos rfl] at h
      obtain ⟨pr, hpr, hpt, e, he, hen⟩ := h
      rcases List.mem_cons.mp hpr with hpr | hpr
      · subst hpr
        rcases innerUpd_mem l k nn e he with he2 | he2
        · exact Or.inl ⟨hpt.symm, by rw [← hen, he2]⟩
        · exact Or.inr ⟨(t0, l), List.mem_cons_self _ _, hpt, e, he2, hen⟩
      · exact Or.inr ⟨pr, List.mem_cons_of_mem _ hpr, hpt, e, he, hen⟩
    · simp only [vtInsert, if_neg ht0] at h
      obtain ⟨pr, hpr, hpt, e, he, hen⟩ := h
      rcases List.mem_cons.mp hpr with hpr | hpr
      · subst hpr
        exact Or.inr ⟨(t0, l), List.mem_cons_self _ _, hpt, e, he, hen⟩
      · rcases ih ⟨pr, hpr, hpt, e, he, hen⟩ with h2 | h2
        · exact Or.inl h2
        · obtain ⟨pr2, hpr2, hpt2, e2, he2, hen2⟩ := h2
          exact Or.inr ⟨pr2, List.mem_cons_of_mem _ hpr2, hpt2, e2, he2, hen2⟩

/-! ## Chain-shape lemmas for search nodes -/

theorem fwdChain_cons (a : PyFloat) (c : Int) (t : Transmuter) (p : Node)
    (v : Finset Int) :
    fwdChain (Node.mk a c t (some p) v) = fwdChain p ++ [t] := by
  simp [fwdChain, walkNode, Node.transmuter]

theorem bwdChain_cons (a : PyFloat) (c : Int) (t : Transmuter) (p : Node)
    (v : Finset Int) :
    bwdChain (Node.mk a c t (some p) v) = t :: bwdChain p := by
  simp [bwdChain, walkNode, Node.transmuter]

theorem fwdChain_spec (g : Grimoire) (ih : Int) :
    ∀ (n : Node), FwdInv g ih n →
      fwdChain n ≠ [] ∧ (∃ hd, (fwdChain n).head? = some hd ∧ hd.hash_in = ih) ∧
        (fwdChain n).getLast? = some n.transmuter ∧
        List.Chain' (fun a b => a.hash_out = b.hash_in) (fwdChain n) ∧
        ∀ t ∈ fwdChain n, EdgeReg g t
  | .mk a c t none v, hn => by
    obtain ⟨h1, h2⟩ := hn
    refine ⟨by simp [fwdChain, walkNode], ⟨t, ?_, h1⟩, ?_, ?_, ?_⟩ <;>
      simp [fwdChain, walkNode, Node.transmuter, h2]
  | .mk a c t (some p) v, hn => by
    obtain ⟨hlink, hreg, hp⟩ := hn
    obtain ⟨hne, ⟨hd, hhd, hdh⟩, hlast, hchain, hall⟩ := fwdChain_spec g ih p hp
    rw [fwdChain_cons]
    refine ⟨by simp, ⟨hd, ?_, hdh⟩, ?_, ?_, ?_⟩
    · rcases hcc : fwdChain p with _ | ⟨x, xs⟩
      · exact absurd hcc hne
      · rw [hcc] at hhd
        simpa using hhd
    · simp [Node.transmuter]
    · rw [List.chain'_append]
      refine ⟨hchain, List.chain'_singleton t, ?_⟩
      intro x hx y hy
      rw [hlast] at hx
      simp only [Option.mem_def, Option.some.injEq] at hx
      simp only [List.head?_cons, Option.mem_def, Option.some.injEq] at hy
      rw [← hx, ← hy] at *
      exact hlink.symm
    · intro x hx
      rcases List.mem_append.mp hx with hx | hx
      · exact hall x hx
      · simp only [List.mem_singleton] at hx
        exact hx ▸ hreg

theorem bwdChain_spec (g : Grimoire) (oh : Int) :
    ∀ (n : Node), BwdInv g oh n →
      bwdChain n ≠ [] ∧ (bwdChain n).head? = some n.transmuter ∧
        (∃ lst, (bwdChain n).getLast? = some lst ∧ lst.hash_out = oh) ∧
        List.Chain' (fun a b => a.hash_out = b.hash_in) (bwdChain n) ∧
        ∀ t ∈ bwdChain n, EdgeReg g t
  | .mk a c t none v, hn => by
    obtain ⟨h1, h2⟩ := hn
    refine ⟨by simp [bwdChain, walkNode], ?_, ⟨t, ?_, h1⟩, ?_, ?_⟩ <;>
      simp [bwdChain, walkNode, Node.transmuter, h2]
  | .mk a c t (some p) v, hn => by
    obtain ⟨hlink, hreg, hp⟩ := hn
    obtain ⟨hne, hhd, ⟨lst, hlast, hlh⟩, hchain, hall⟩ := bwdChain_spec g oh p hp
    rw [bwdChain_cons]
    refine ⟨by simp, by simp [Node.transmuter], ⟨lst, ?_, hlh⟩, ?_, ?_⟩
    · rcases hcc : bwdChain p with _ | ⟨x, xs⟩
      · exact absurd hcc hne
      · rw [hcc] at hlast
        rw [List.getLast?_cons_cons]
        exact hlast
    · rw [List.chain'_cons']
      refine ⟨?_, hchain⟩
      intro y hy
      rw [hhd] at hy
      simp only [Option.mem_def, Option.some.injEq] at hy
      rw [← hy]
      exact hlink
    · intro x hx
      rcases List.mem_cons.mp hx with hx | hx
      · exact hx ▸ hreg
      · exact hall x hx

theorem fwd_goal_good (g : Grimoire) (ih oh : Int) (n : Node) (hf : FwdInv g ih n)
    (hgoal : n.transmuter.hash_out = oh) : GoodChain g ih oh (fwdChain n) := by
  obtain ⟨hne, hhd, hlast, hchain, hall⟩ := fwdChain_spec g ih n hf
  exact ⟨hne, hhd, ⟨n.transmuter, hlast, hgoal⟩, hchain, hall⟩

theorem bwd_goal_good (g : Grimoire) (ih oh : Int) (n : Node) (hb : BwdInv g oh n)
    (hgoal : n.transmuter.hash_in = ih) : GoodChain g ih oh (bwdChain n) := by
  obtain ⟨hne, hhd, hlast, hchain, hall⟩ := bwdChain_spec g oh n hb
  exact ⟨hne, ⟨n.transmuter, hhd, hgoal⟩, hlast, hchain, hall⟩

theorem splice_good (g : Grimoire) (ih oh : Int) :
    ∀ (fn : Node), FwdInv g ih fn → ∀ (bn : Node), BwdInv g oh bn →
      bn.transmuter = fn.transmuter → GoodChain g ih oh (spliceChain fn bn)
  | .mk a c t none v, hf, bn, hb, heq => by
    have hsp : spliceChain (Node.mk a c t none v) bn = bwdChain bn := by
      simp [spliceChain, walkNode]
    rw [hsp]
    obtain ⟨hne, hhd, hlast, hchain, hall⟩ := bwdChain_spec g oh bn hb
    refine ⟨hne, ⟨bn.transmuter, hhd, ?_⟩, hlast, hchain, hall⟩
    rw [heq]
    exact hf.1
  | .mk a c t (some p) v, hf, bn, hb, heq => by
    obtain ⟨hlink, hreg, hp⟩ := hf
    have hsp : spliceChain (Node.mk a c t (some p) v) bn = fwdChain p ++ bwdChain bn := by
      simp [spliceChain, walkNode, fwdChain, bwdChain]
    rw [hsp]
    obtain ⟨hne, ⟨hd, hhd, hdh⟩, hlast, hchain, hall⟩ := fwdChain_spec g ih p hp
    obtain ⟨bne, bhd, ⟨lst, blast, blh⟩, bchain, ball⟩ := bwdChain_spec g oh bn hb
    refine ⟨by simp [hne], ⟨hd, ?_, hdh⟩, ⟨lst, ?_, blh⟩, ?_, ?_⟩
    · rw [List.head?_append_of_ne_nil _ hne]
      exact hhd
    · rw [List.getLast?_append_of_ne_nil _ bne]
      exact blast
    · rw [List.chain'_append]
      refine ⟨hchain, bchain, ?_⟩
      intro x hx y hy
      rw [hlast] at hx
      rw [bhd] at hy
      simp only [Option.mem_def, Option.some.injEq] at hx hy
      rw [← hx, ← hy, heq]
      exact hlink.symm
    · intro x hx
      rcases List.mem_append.mp hx with hx | hx
      · exact hall x hx
      · exact ball x hx

/-! ## Search-step invariant preservation -/

theorem foldl_inv {β γ : Type _} (P : γ → Prop) :
    ∀ (l : List β) (step : γ → β → γ) (q : γ),
      (∀ q' b, b ∈ l → P q' → P (step q' b)) → P q → P (l.foldl step q) := by
  intro l
  induction l with
  | nil =>
    intro step q _ hq
    exact hq
  | cons b bs ih =>
    intro step q hstep hq
    exact ih step (step q b)
      (fun q' b' hb' => hstep q' b' (List.mem_cons_of_mem _ hb'))
      (hstep q b (List.mem_cons_self _ _) hq)

theorem fwdExpand_inv (c : Ctx) (hwf : WFGrim c.g) (st : SState) (node : Node)
    (rest : List Node) (hinv : SInv c st) (hnode : FwdInv c.g c.inHash node)
    (hrest : ∀ x ∈ rest, FwdInv c.g c.inHash x) :
    SInv c (fwdExpand c st node rest) := by
  constructor
  · show ∀ x ∈ (fwdExpand c st node rest).in_queue, _
    simp only [fwdExpand]
    refine foldl_inv (fun q => ∀ x ∈ q, FwdInv c.g c.inHash x) _ _ rest ?_ hrest
    intro q t ht hq x hx
    split at hx
    · exact hq x hx
    · split at hx
      · rcases mem_heappush _ _ _ _ hx with hx | hx
        · subst hx
          have hin := wf_dictGetD_in c.g hwf node.transmuter.hash_out t ht
          exact ⟨hin.1, hin.2, hnode⟩
        · exact hq x hx
      · exact hq x hx
  · show ∀ x ∈ st.out_queue, _
    exact hinv.outQ
  · intro t' n' h
    simp only [fwdExpand] at h
    rcases vtInsert_entry _ _ _ _ _ _ h with ⟨ht, hn⟩ | h2
    · subst ht
      subst hn
      exact ⟨rfl, hnode⟩
    · exact hinv.inV t' n' h2
  · intro t' n' h
    simp only [fwdExpand] at h
    exact hinv.outV t' n' h

theorem bwdExpand_inv (c : Ctx) (hwf : WFGrim c.g) (st : SState) (node : Node)
    (rest : List Node) (hinv : SInv c st) (hnode : BwdInv c.g c.outHash node)
    (hrest : ∀ x ∈ rest, BwdInv c.g c.outHash x) :
    SInv c (bwdExpand c st node rest) := by
  constructor
  · show ∀ x ∈ st.in_queue, _
    exact hinv.inQ
  · show ∀ x ∈ (bwdExpand c st node rest).out_queue, _
    simp only [bwdExpand]
    refine foldl_inv (fun q => ∀ x ∈ q, BwdInv c.g c.outHash x) _ _ rest ?_ hrest
    intro q t ht hq x hx
    split at hx
    · exact hq x hx
    · split at hx
      · rcases mem_heappush _ _ _ _ hx with hx | hx
        · subst hx
          have hout := wf_dictGetD_out c.g hwf node.transmuter.hash_in t ht
          exact ⟨hout.1, hout.2, hnode⟩
        · exact hq x hx
      · exact hq x hx
  · intro t' n' h
    simp only [bwdExpand] at h
    exact hinv.inV t' n' h
  · intro t' n' h
    simp only [bwdExpand] at h
    rcases vtInsert_entry _ _ _ _ _ _ h with ⟨ht, hn⟩ | h2
    · subst ht
      subst hn
      exact ⟨rfl, hnode⟩
    · exact hinv.outV t' n' h2

theorem searchStep_done_good (c : Ctx) (st : SState)
    (hinv : SInv c st) :
    ∀ l, searchStep c st = .done (.chain l) →
      l = [] ∨ GoodChain c.g c.inHash c.outHash l := by
  intro l hl
  unfold searchStep at hl
  split at hl
  · simp only [StepOut.done.injEq, SearchResult.chain.injEq] at hl
    exact Or.inl hl.symm
  · split at hl
    · -- forward direction
      split at hl
      · simp only [StepOut.done.injEq, SearchResult.chain.injEq] at hl
        exact Or.inl hl.symm
      · rename_i node rest heq
        have hnode := hinv.inQ node (heappop_mem nodeLt st.in_queue rest node heq).1
        split at hl
        · simp at hl
        · split at hl
          · rename_i hgoal
            simp only [StepOut.done.injEq, SearchResult.chain.injEq] at hl
            right
            rw [← hl]
            exact fwd_goal_good c.g c.inHash c.outHash node hnode hgoal.1
          · split at hl
            · rename_i m heqm
              simp only [StepOut.done.injEq, SearchResult.chain.injEq] at hl
              have hm := vtValues_entry st.out_visited node.transmuter m
                (List.mem_of_find?_eq_some heqm)
              obtain ⟨hmt, hbw⟩ := hinv.outV node.transmuter m hm
              right
              rw [← hl]
              exact splice_good c.g c.inHash c.outHash node hnode m hbw hmt
            · simp at hl
    · -- backward direction
      split at hl
      · simp only [StepOut.done.injEq, SearchResult.chain.injEq] at hl
        exact Or.inl hl.symm
      · rename_i node rest heq
        have hnode := hinv.outQ node (heappop_mem nodeLt st.out_queue rest node heq).1
        split at hl
        · simp at hl
        · split at hl
          · rename_i hgoal
            simp only [StepOut.done.injEq, SearchResult.chain.injEq] at hl
            right
            rw [← hl]
            exact bwd_goal_good c.g c.inHash c.outHash node hnode hgoal.1
          · split at hl
            · rename_i m heqm
              simp only [StepOut.done.injEq, SearchResult.chain.injEq] at hl
              have hm := vtValues_entry st.in_visited node.transmuter m
                (List.mem_of_find?_eq_some heqm)
              obtain ⟨hmt, hfw⟩ := hinv.inV node.transmuter m hm
              right
              rw [← hl]
              exact splice_good c.g c.inHash c.outHash m hfw node hnode hmt.symm
            · simp at hl

theorem searchStep_next_inv (c : Ctx) (hwf : WFGrim c.g) (st : SState)
    (hinv : SInv c st) :
    ∀ st' ev, searchStep c st = .next st' ev → SInv c st' := by
  intro st' ev hl
  unfold searchStep at hl
  split at hl
  · simp at hl
  · split at hl
    · split at hl
      · simp at hl
      · rename_i node rest heq
        have hpop := heappop_mem nodeLt st.in_queue rest node heq
        have hnode := hinv.inQ node hpop.1
        have hrest : ∀ x ∈ rest, FwdInv c.g c.inHash x :=
          fun x hx => hinv.inQ x (hpop.2 x hx)
        split at hl
        · simp only [StepOut.next.injEq] at hl
          rw [← hl.1]
          exact ⟨hrest, hinv.outQ, hinv.inV, hinv.outV⟩
        · split at hl
          · simp at hl
          · split at hl
            · simp at hl
            · simp only [StepOut.next.injEq] at hl
              rw [← hl.1]
              exact fwdExpand_inv c hwf st node rest hinv hnode hrest
    · split at hl
      · simp at hl
      · rename_i node rest heq
        have hpop := heappop_mem nodeLt st.out_queue rest node heq
        have hnode := hinv.outQ node hpop.1
        have hrest : ∀ x ∈ rest, BwdInv c.g c.outHash x :=
          fun x hx => hinv.outQ x (hpop.2 x hx)
        split at hl
        · simp only [StepOut.next.injEq] at hl
          rw [← hl.1]
          exact ⟨hinv.inQ, hrest, hinv.inV, hinv.outV⟩
        · split at hl
          · simp at hl
          · split at hl
            · simp at hl
            · simp only [StepOut.next.injEq] at hl
              rw [← hl.1]
              exact bwdExpand_inv c hwf st node rest hinv hnode hrest

theorem searchLoop_good (c : Ctx) (hwf : WFGrim c.g) :
    ∀ (fuel : Nat) (st : SState), SInv c st →
      ∀ l, (searchLoop c fuel st).1 = .chain l →
        l = [] ∨ GoodChain c.g c.inHash c.outHash l := by
  intro fuel
  induction fuel with
  | zero =>
    intro st _ l hl
    simp [searchLoop] at hl
  | succ fuel ih =>
    intro st hinv l hl
    rw [searchLoop] at hl
    rcases hstep : searchStep c st with r | ⟨st2, ev⟩
    · rw [hstep] at hl
      simp only at hl
      subst hl
      exact searchStep_done_good c st hinv l hstep
    · rw [hstep] at hl
      simp only at hl
      exact ih st2 (searchStep_next_inv c hwf st hinv st2 ev hstep) l hl

theorem inSeedsOf_inv (g : Grimoire) (hwf : WFGrim g) (ih : Int) (iv : Finset Int) :
    ∀ n ∈ inSeedsOf g ih iv, FwdInv g ih n := by
  intro n hn
  obtain ⟨t, ht, hf⟩ := List.mem_filterMap.mp hn
  split at hf
  · simp only [Option.some.injEq] at hf
    subst hf
    have hin := wf_dictGetD_in g hwf ih t ht
    exact ⟨hin.1, hin.2⟩
  · exact Option.noConfusion hf

theorem outSeedsOf_inv (g : Grimoire) (hwf : WFGrim g) (oh : Int) (ov : Finset Int) :
    ∀ n ∈ outSeedsOf g oh ov, BwdInv g oh n := by
  intro n hn
  obtain ⟨t, ht, hf⟩ := List.mem_map.mp hn
  subst hf
  have hout := wf_dictGetD_out g hwf oh t ht
  exact ⟨hout.1, hout.2⟩

theorem searchHashed_good (g : Grimoire) (hwf : WFGrim g) (ih oh : Int)
    (iv ov : Finset Int) (ig : List Transmuter) (fuel : Nat) :
    ∀ l, (searchHashed g ih iv oh ov ig fuel).1 = .chain l →
      l = [] ∨ GoodChain g ih oh l := by
  intro l hl
  unfold searchHashed at hl
  split at hl
  · simp at hl
  · split at hl
    · simp at hl
    · refine searchLoop_good ⟨g, ih, oh, iv, ov, ig⟩ hwf fuel _ ?_ l hl
      refine ⟨inSeedsOf_inv g hwf ih iv, outSeedsOf_inv g hwf oh ov, ?_, ?_⟩
      · intro t n h
        obtain ⟨pr, hpr, _⟩ := h
        simp at hpr
      · intro t n h
        obtain ⟨pr, hpr, _⟩ := h
        simp at hpr

theorem searchStep_done_shape (c : Ctx) (st : SState) :
    ∀ r, searchStep c st = .done r → ∃ l, r = .chain l := by
  intro r hl
  unfold searchStep at hl
  split at hl
  · simp only [StepOut.done.injEq] at hl
    exact ⟨[], hl.symm⟩
  · split at hl <;> split at hl
    · simp only [StepOut.done.injEq] at hl
      exact ⟨[], hl.symm⟩
    · split at hl
      · simp at hl
      · split at hl
        · simp only [StepOut.done.injEq] at hl
          exact ⟨_, hl.symm⟩
        · split at hl
          · simp only [StepOut.done.injEq] at hl
            exact ⟨_, hl.symm⟩
          · simp at hl
    · simp only [StepOut.done.injEq] at hl
      exact ⟨[], hl.symm⟩
    · split at hl
      · simp at hl
      · split at hl
        · simp only [StepOut.done.injEq] at hl
          exact ⟨_, hl.symm⟩
        · split at hl
          · simp only [StepOut.done.injEq] at hl
            exact ⟨_, hl.symm⟩
          · simp at hl

theorem searchLoop_not_noTrans (c : Ctx) :
    ∀ (fuel : Nat) (st : SState),
      (searchLoop c fuel st).1 ≠ .noTransIn ∧ (searchLoop c fuel st).1 ≠ .noTransOut := by
  intro fuel
  induction fuel with
  | zero =>
    intro st
    simp [searchLoop]
  | succ fuel ih =>
    intro st
    rw [searchLoop]
    rcases hstep : searchStep c st with r | ⟨st2, ev⟩
    · obtain ⟨l, hl⟩ := searchStep_done_shape c st r hstep
      subst hl
      simp
    · simpa using ih st2

theorem inSeedsOf_empty_iff (g : Grimoire) (ih : Int) (iv : Finset Int) :
    (inSeedsOf g ih iv).isEmpty = true ↔
      ∀ t ∈ dictGetD g.input_map ih [], ¬ t.var_hash_in ⊆ iv := by
  rw [List.isEmpty_iff, inSeedsOf, List.filterMap_eq_nil_iff]
  constructor
  · intro h t ht hsub
    have := h t ht
    rw [if_pos (by simpa using hsub)] at this
    exact Option.noConfusion this
  · intro h t ht
    rw [if_neg (by simpa using h t ht)]

theorem outSeedsOf_empty_iff (g : Grimoire) (oh : Int) (ov : Finset Int) :
    (outSeedsOf g oh ov).isEmpty = true ↔ dictGetD g.output_map oh [] = [] := by
  rw [List.isEmpty_iff, outSeedsOf, List.map_eq_nil_iff]

theorem searchHashed_noTrans_iff (g : Grimoire) (ih oh : Int) (iv ov : Finset Int)
    (ig : List Transmuter) (fuel : Nat) :
    ((searchHashed g ih iv oh ov ig fuel).1 = .noTransIn ∨
      (searchHashed g ih iv oh ov ig fuel).1 = .noTransOut) ↔
      NoTransCond g ih iv oh := by
  unfold searchHashed NoTransCond
  split
  · rename_i hempty
    simp only [true_or, true_iff]
    exact Or.inl ((inSeedsOf_empty_iff g ih iv).mp hempty)
  · rename_i hnotempty
    split
    · rename_i hoempty
      simp only [or_true, true_iff]
      exact Or.inr ((outSeedsOf_empty_iff g oh ov).mp hoempty)
    · rename_i honotempty
      have hni := searchLoop_not_noTrans ⟨g, ih, oh, iv, ov, ig⟩ fuel
        ⟨inSeedsOf g ih iv, outSeedsOf g oh ov, [], []⟩
      constructor
      · intro h
        rcases h with h | h
        · exact absurd h hni.1
        · exact absurd h hni.2
      · intro h
        exfalso
        rcases h with h | h
        · exact hnotempty ((inSeedsOf_empty_iff g ih iv).mpr h)
        · exact honotempty ((outSeedsOf_empty_iff g oh ov).mpr h)

/-! ## Coordinator-loop lemmas -/

theorem transmuteLoop_zero {α : Type} (g : Grimoire) (sem : FnSem α) (value : α)
    (th : Obj) (vh : List Obj) (tw : Obj) (vw : List Obj) (ig : List Transmuter)
    (errs : List ErrRec) (sfuel : Nat) :
    transmuteLoop g sem value th vh tw vw ig errs 0 sfuel = (.execFail errs, 0) := rfl

theorem transmuteLoop_empty {α : Type} (g : Grimoire) (sem : FnSem α) (value : α)
    (th : Obj) (vh : List Obj) (tw : Obj) (vw : List Obj) (ig : List Transmuter)
    (errs : List ErrRec) (fuel sfuel : Nat)
    (hs : (search g th vh tw vw ig sfuel).1 = .chain []) :
    transmuteLoop g sem value th vh tw vw ig errs (fuel + 1) sfuel =
      if errs.isEmpty then (.noChain th tw, 1) else (.execFail errs, 1) := by
  simp only [transmuteLoop, hs]
  rw [if_pos (by rfl)]

theorem transmuteLoop_fail_step {α : Type} (g : Grimoire) (sem : FnSem α) (value : α)
    (th : Obj) (vh : List Obj) (tw : Obj) (vw : List Obj) (ig : List Transmuter)
    (errs : List ErrRec) (fuel sfuel : Nat) (ts : List Transmuter) (e : ErrRec)
    (t : Transmuter) (hs : (search g th vh tw vw ig sfuel).1 = .chain ts)
    (hne : ts ≠ []) (hrun : runChainGo sem value ts = .error (e, t)) :
    transmuteLoop g sem value th vh tw vw ig errs (fuel + 1) sfuel =
      ((transmuteLoop g sem value th vh tw vw (insertT t ig) (errs ++ [e]) fuel sfuel).1,
        (transmuteLoop g sem value th vh tw vw (insertT t ig) (errs ++ [e]) fuel sfuel).2 + 1) := by
  simp only [transmuteLoop, hs, hrun]
  rw [if_neg (by simpa [List.isEmpty_iff] using hne)]

theorem transmuteLoop_ok_step {α : Type} (g : Grimoire) (sem : FnSem α) (value : α)
    (th : Obj) (vh : List Obj) (tw : Obj) (vw : List Obj) (ig : List Transmuter)
    (errs : List ErrRec) (fuel sfuel : Nat) (ts : List Transmuter) (v : α)
    (hs : (search g th vh tw vw ig sfuel).1 = .chain ts)
    (hne : ts ≠ []) (hrun : runChainGo sem value ts = .ok v) :
    transmuteLoop g sem value th vh tw vw ig errs (fuel + 1) sfuel = (.ok v, 1) := by
  simp only [transmuteLoop, hs, hrun]
  rw [if_neg (by simpa [List.isEmpty_iff] using hne)]

theorem transmuteLoop_count_le {α : Type} (g : Grimoire) (sem : FnSem α) (value : α)
    (th : Obj) (vh : List Obj) (tw : Obj) (vw : List Obj) :
    ∀ (fuel : Nat) (ig : List Transmuter) (errs : List ErrRec) (sfuel : Nat),
      (transmuteLoop g sem value th vh tw vw ig errs fuel sfuel).2 ≤ fuel := by
  intro fuel
  induction fuel with
  | zero =>
    intro ig errs sfuel
    simp [transmuteLoop_zero]
  | succ fuel ih =>
    intro ig errs sfuel
    simp only [transmuteLoop]
    rcases (search g th vh tw vw ig sfuel).1 with _ | _ | ts | _ <;> simp only
    · omega
    · omega
    · split
      · split <;> simp
      · rcases hrun : runChainGo sem value ts with ⟨e, t⟩ | v
        · have := ih (insertT t ig) (errs ++ [e]) sfuel
          show (transmuteLoop g sem value th vh tw vw (insertT t ig) (errs ++ [e])
            fuel sfuel).2 + 1 ≤ fuel + 1
          omega
        · simp
    · omega

theorem transmuteLoop_noChain {α : Type} (g : Grimoire) (sem : FnSem α) (value : α)
    (th : Obj) (vh : List Obj) (tw : Obj) (vw : List Obj) :
    ∀ (fuel : Nat) (ig : List Transmuter) (errs : List ErrRec) (sfuel : Nat) (a b : Obj),
      (transmuteLoop g sem value th vh tw vw ig errs fuel sfuel).1 = .noChain a b →
        errs = [] ∧ a = th ∧ b = tw ∧ (search g th vh tw vw ig sfuel).1 = .chain [] := by
  intro fuel
  induction fuel with
  | zero =>
    intro ig errs sfuel a b h
    simp [transmuteLoop_zero] at h
  | succ fuel ih =>
    intro ig errs sfuel a b h
    simp only [transmuteLoop] at h
    rcases hs : (search g th vh tw vw ig sfuel).1 with _ | _ | ts | _ <;>
      rw [hs] at h <;> simp only at h
    · exact Outcome.noConfusion h
    · exact Outcome.noConfusion h
    · split at h
      · rename_i hempty
        rw [List.isEmpty_iff] at hempty
        subst hempty
        split at h
        · rename_i herr
          rw [List.isEmpty_iff] at herr
          simp only [Outcome.noChain.injEq] at h
          exact ⟨herr, h.1.symm, h.2.symm, rfl⟩
        · exact Outcome.noConfusion h
      · rcases hrun : runChainGo sem value ts with ⟨e, t⟩ | v
        · rw [hrun] at h
          have h2 := ih (insertT t ig) (errs ++ [e]) sfuel a b h
          simp at h2
        · rw [hrun] at h
          exact Outcome.noConfusion h
    · exact Outcome.noConfusion h

theorem search_eq_searchHashed (g : Grimoire) (th : Obj) (vh : List Obj) (tw : Obj)
    (vw : List Obj) (ig : List Transmuter) (sfuel : Nat) :
    search g th vh tw vw ig sfuel =
      searchHashed g (pyHash th) (hashTags vh) (pyHash tw) (hashTags vw) ig sfuel := rfl

theorem transmuteLoop_ok {α : Type} (g : Grimoire) (sem : FnSem α) (value : α)
    (th : Obj) (vh : List Obj) (tw : Obj) (vw : List Obj) :
    ∀ (fuel : Nat) (ig : List Transmuter) (errs : List ErrRec) (sfuel : Nat) (v : α),
      (transmuteLoop g sem value th vh tw vw ig errs fuel sfuel).1 = .ok v →
        ∃ ts ig2, (search g th vh tw vw ig2 sfuel).1 = .chain ts ∧ ts ≠ [] ∧
          runChainGo sem value ts = .ok v := by
  intro fuel
  induction fuel with
  | zero =>
    intro ig errs sfuel v h
    exact Outcome.noConfusion h
  | succ fuel ih =>
    intro ig errs sfuel v h
    simp only [transmuteLoop] at h
    rcases hs : (search g th vh tw vw ig sfuel).1 with _ | _ | ts | _ <;>
      rw [hs] at h <;> simp only at h
    · exact Outcome.noConfusion h
    · exact Outcome.noConfusion h
    · split at h
      · split at h <;> exact Outcome.noConfusion h
      · rename_i hne
        rcases hrun : runChainGo sem value ts with ⟨e, t⟩ | w
        · rw [hrun] at h
          exact ih (insertT t ig) (errs ++ [e]) sfuel v h
        · rw [hrun] at h
          simp only [Outcome.ok.injEq] at h
          subst h
          exact ⟨ts, ig, hs, by simpa [List.isEmpty_iff] using hne, hrun⟩
    · exact Outcome.noConfusion h

theorem transmuteLoop_noTrans_src {α : Type} (g : Grimoire) (sem : FnSem α)
    (value : α) (th : Obj) (vh : List Obj) (tw : Obj) (vw : List Obj) :
    ∀ (fuel : Nat) (ig : List Transmuter) (errs : List ErrRec) (sfuel : Nat),
      isNoTransmuter
          (transmuteLoop g sem value th vh tw vw ig errs fuel sfuel).1 = true →
        ∃ ig2, (search g th vh tw vw ig2 sfuel).1 = .noTransIn ∨
          (search g th vh tw vw ig2 sfuel).1 = .noTransOut := by
  intro fuel
  induction fuel with
  | zero =>
    intro ig errs sfuel h
    simp [transmuteLoop_zero, isNoTransmuter] at h
  | succ fuel ih =>
    intro ig errs sfuel h
    simp only [transmuteLoop] at h
    rcases hs : (search g th vh tw vw ig sfuel).1 with _ | _ | ts | _ <;>
      rw [hs] at h <;> simp only at h
    · exact ⟨ig, Or.inl hs⟩
    · exact ⟨ig, Or.inr hs⟩
    · split at h
      · split at h <;> simp [isNoTransmuter] at h
      · rcases hrun : runChainGo sem value ts with ⟨e, t⟩ | w <;> rw [hrun] at h
        · exact ih (insertT t ig) (errs ++ [e]) sfuel h
        · simp [isNoTransmuter] at h
    · simp [isNoTransmuter] at h

theorem transmuteLoop_noTrans_iff {α : Type} (g : Grimoire) (sem : FnSem α)
    (value : α) (th : Obj) (vh : List Obj) (tw : Obj) (vw : List Obj)
    (fuel : Nat) (ig : List Transmuter) (errs : List ErrRec) (sfuel : Nat) :
    isNoTransmuter
        (transmuteLoop g sem value th vh tw vw ig errs (fuel + 1) sfuel).1 = true ↔
      NoTransCond g (pyHash th) (hashTags vh) (pyHash tw) := by
  constructor
  · intro h
    obtain ⟨ig2, h2⟩ := transmuteLoop_noTrans_src g sem value th vh tw vw (fuel + 1)
      ig errs sfuel h
    have hiff := searchHashed_noTrans_iff g (pyHash th) (pyHash tw) (hashTags vh)
      (hashTags vw) ig2 sfuel
    rw [← search_eq_searchHashed g th vh tw vw ig2 sfuel] at hiff
    exact hiff.mp h2
  · intro hc
    have hiff := searchHashed_noTrans_iff g (pyHash th) (pyHash tw) (hashTags vh)
      (hashTags vw) ig sfuel
    rw [← search_eq_searchHashed g th vh tw vw ig sfuel] at hiff
    rcases hiff.mpr hc with hs | hs
    · simp only [transmuteLoop, hs]
      rfl
    · simp only [transmuteLoop, hs]
      rfl

/-! # Claim theorems -/

/-- **C1.** The claim states that for every chain returned by the planner the
derived tag-state sequence satisfies every edge's `req_in` at firing time and
covers `dst_tags` at the end.  The code violates this: on the registry where
`A→B` provides `var`, `B→C` consumes it and `C→D` requires it again, the
backward search returns the chain `[A→B, B→C, C→D]` from
`_search(A, [], D, [])`, although `C→D` fires in a state that does not
contain `var` (the set-valued backward obligation cannot count the tag being
demanded twice).  The theorem evaluates the search at this failing input and
shows the returned chain violates the claimed property. -/
theorem claim1_dependency_safety_bug :
    (search gConsumed catA [] catD [] [] 10).1 = .chain [tSupply, tSpend, tNeed] ∧
      depSafeFromB (hashTags []) [tSupply, tSpend, tNeed] = false ∧
      chainSafeB (hashTags []) (hashTags []) [tSupply, tSpend, tNeed] = false := by
  refine ⟨by rfl, by rfl, by rfl⟩

/-- **C6.** The tag-directed detour scenario: with edges `A→B`, `B→A`, `B→C`
and `C→B` providing `var`, `transmute("start", A, [var], A)` returns
`"start -> AtoB -> BtoC -> CtoB:var -> BtoA"`. -/
theorem claim6_tag_directed_detour :
    transmute gBasicVar semBasicVar dsemNone "start" catA [tagVar] catA [] false 30 =
      .ok "start -> AtoB -> BtoC -> CtoB:var -> BtoA" := by rfl

/-- **C3 counterexample.** The claim states that the stored per-category
lists are ordered ascending by cost and lookups return them in that order.
After registering three edges of costs 3, 2 and 1 under the same category the
stored by-input list is `[cost 1, cost 3, cost 2]` — the binary-heap layout
produced by `heappush` — which is not ascending, and the lookup returns it
as stored. -/
theorem claim3_heap_not_sorted :
    dictGetD gCosts.input_map (pyHash catA) [] = [tCost1, tCost3, tCost2] ∧
      ¬ List.Sorted (fun a b : Transmuter => a.cost ≤ b.cost)
        (dictGetD gCosts.input_map (pyHash catA) []) := by
  constructor
  · rfl
  · decide

/-- **C3 amended.** After any sequence of `inscribe_transmutation` calls,
each category's by-input (by-output) list contains exactly the edges
registered with that input (output) category — as a multiset, arranged in
`heappush` binary-heap layout rather than sorted ascending by cost — and
lookups return the stored lists as they are. -/
theorem claim3_heap_multiset (regs : List RegEntry) (cat : Int) :
    ((dictGetD (buildG regs).input_map cat [] : List Transmuter) : Multiset Transmuter) =
      ↑((regs.filter (fun r => decide (pyHash r.type_in = cat))).map regTrans) ∧
    ((dictGetD (buildG regs).output_map cat [] : List Transmuter) : Multiset Transmuter) =
      ↑((regs.filter (fun r => decide (pyHash r.type_out = cat))).map regTrans) := by
  constructor
  · have h := buildG_input_ms regs Grimoire.empty cat
    simpa [buildG, Grimoire.empty, dictGetD] using h
  · have h := buildG_output_ms regs Grimoire.empty cat
    simpa [buildG, Grimoire.empty, dictGetD] using h

/-- **C9.** Categories and tags are identified solely by their hash values:
replacing a category (as input or output type) or a tag (in either variation
sequence or in the search's tag arguments) by a different value with the
same hash leaves both registration and search unchanged, so hash-colliding
identifiers are conflated into one node or one tag. -/
theorem claim9_hash_identification (c1 c2 : Obj) (h : pyHash c1 = pyHash c2) :
    (∀ g cost vin t2 vout fn,
      inscribe_transmutation g cost c1 vin t2 vout fn =
        inscribe_transmutation g cost c2 vin t2 vout fn) ∧
    (∀ g cost t1 vin vout fn,
      inscribe_transmutation g cost t1 vin c1 vout fn =
        inscribe_transmutation g cost t1 vin c2 vout fn) ∧
    (∀ g cost t1 pre post t2 vout fn,
      inscribe_transmutation g cost t1 (pre ++ c1 :: post) t2 vout fn =
        inscribe_transmutation g cost t1 (pre ++ c2 :: post) t2 vout fn) ∧
    (∀ g cost t1 vin t2 pre post fn,
      inscribe_transmutation g cost t1 vin t2 (pre ++ c1 :: post) fn =
        inscribe_transmutation g cost t1 vin t2 (pre ++ c2 :: post) fn) ∧
    (∀ g vin t2 vout ig fuel,
      search g c1 vin t2 vout ig fuel = search g c2 vin t2 vout ig fuel) ∧
    (∀ g t1 vin vout ig fuel,
      search g t1 vin c1 vout ig fuel = search g t1 vin c2 vout ig fuel) ∧
    (∀ g t1 pre post t2 vout ig fuel,
      search g t1 (pre ++ c1 :: post) t2 vout ig fuel =
        search g t1 (pre ++ c2 :: post) t2 vout ig fuel) ∧
    (∀ g t1 vin t2 pre post ig fuel,
      search g t1 vin t2 (pre ++ c1 :: post) ig fuel =
        search g t1 vin t2 (pre ++ c2 :: post) ig fuel) := by
  refine ⟨?_, ?_, ?_, ?_, ?_, ?_, ?_, ?_⟩ <;> intros <;>
    simp [inscribe_transmutation, search, hashTags, h]

/-- Witness for C9 at the concrete colliding pair `(5, 0)` and `(5, 1)`. -/
theorem claim9_hash_identification_witness :
    pyHash ((5 : Int), (0 : Int)) = pyHash ((5 : Int), (1 : Int)) ∧
      ∀ g vin t2 vout ig fuel,
        search g ((5 : Int), (0 : Int)) vin t2 vout ig fuel =
          search g ((5 : Int), (1 : Int)) vin t2 vout ig fuel :=
  ⟨rfl, (claim9_hash_identification ((5 : Int), (0 : Int)) ((5 : Int), (1 : Int))
    rfl).2.2.2.2.1⟩

/-- **C2.** During a single transmute call (whose retry loop is
`transmuteLoop`), if the planner returns an empty chain while at least one
execution error has been recorded, the call raises `ExecutionError` bundling
the recorded failures — not `NoChainError`; and `NoChainError` is raised
only when the planner returns an empty chain and no execution error has yet
occurred (it can only arise with an empty error list, from an empty planner
result under the entry banned set). -/
theorem claim2_exec_error_over_no_chain {α : Type} :
    (∀ (g : Grimoire) (sem : FnSem α) (value : α) (th : Obj) (vh : List Obj)
        (tw : Obj) (vw : List Obj) (ig : List Transmuter) (errs : List ErrRec)
        (fuel sfuel : Nat),
      (search g th vh tw vw ig sfuel).1 = .chain [] → errs ≠ [] →
        (transmuteLoop g sem value th vh tw vw ig errs (fuel + 1) sfuel).1 =
          .execFail errs) ∧
    (∀ (g : Grimoire) (sem : FnSem α) (value : α) (th : Obj) (vh : List Obj)
        (tw : Obj) (vw : List Obj) (ig : List Transmuter) (errs : List ErrRec)
        (fuel sfuel : Nat),
      (search g th vh tw vw ig sfuel).1 = .chain [] → errs = [] →
        (transmuteLoop g sem value th vh tw vw ig errs (fuel + 1) sfuel).1 =
          .noChain th tw) ∧
    (∀ (g : Grimoire) (sem : FnSem α) (value : α) (th : Obj) (vh : List Obj)
        (tw : Obj) (vw : List Obj) (ig : List Transmuter) (errs : List ErrRec)
        (fuel sfuel : Nat) (a b : Obj),
      (transmuteLoop g sem value th vh tw vw ig errs fuel sfuel).1 = .noChain a b →
        errs = [] ∧ a = th ∧ b = tw ∧
          (search g th vh tw vw ig sfuel).1 = .chain []) := by
  refine ⟨?_, ?_, ?_⟩
  · intro g sem value th vh tw vw ig errs fuel sfuel hs herr
    rw [transmuteLoop_empty g sem value th vh tw vw ig errs fuel sfuel hs,
      if_neg (by simpa [List.isEmpty_iff] using herr)]
  · intro g sem value th vh tw vw ig errs fuel sfuel hs herr
    rw [transmuteLoop_empty g sem value th vh tw vw ig errs fuel sfuel hs,
      if_pos (by simpa [List.isEmpty_iff] using herr)]
  · intro g sem value th vh tw vw ig errs fuel sfuel a b h
    exact transmuteLoop_noChain g sem value th vh tw vw fuel ig errs sfuel a b h

/-- Witness for C2: on the failure-scenario registry no chain links `A` to
`D`; with a recorded error the loop raises `ExecutionError`, with none it
raises `NoChainError`, and a concrete `NoChainError` run has no recorded
errors and an empty planner result. -/
theorem claim2_exec_error_over_no_chain_witness :
    ((search gFail catA [] catD [] [] 10).1 = .chain [] ∧
      ([("RuntimeError", "BAD STUFF", "")] : List ErrRec) ≠ [] ∧
      (transmuteLoop gFail semFail "start" catA [] catD [] []
        [("RuntimeError", "BAD STUFF", "")] 3 10).1 =
        .execFail [("RuntimeError", "BAD STUFF", "")]) ∧
    ((transmuteLoop gFail semFail "start" catA [] catD [] [] [] 3 10).1 =
      .noChain catA catD) ∧
    ((transmuteLoop gFail semFail "start" catA [] catD [] [] [] 10 10).1 =
        .noChain catA catD →
      ([] : List ErrRec) = [] ∧ catA = catA ∧ catD = catD ∧
        (search gFail catA [] catD [] [] 10).1 = .chain []) := by
  refine ⟨⟨by rfl, by simp, ?_⟩, ?_, ?_⟩
  · exact (claim2_exec_error_over_no_chain.1 gFail semFail "start" catA [] catD [] []
      [("RuntimeError", "BAD STUFF", "")] 2 10) (by rfl) (by simp)
  · exact (claim2_exec_error_over_no_chain.2.1 gFail semFail "start" catA [] catD [] []
      [] 2 10) (by rfl) rfl
  · exact claim2_exec_error_over_no_chain.2.2 gFail semFail "start" catA [] catD [] []
      [] 10 10 catA catD

/-- **C4.** `transmute` raises `NoTransmuterError` exactly when no registered
edge under the source hash has its requirements inside the merged explicit
and detected tags, or no registered edge at all ends at the destination
hash; the outcome kind is independent of the requested destination tags. -/
theorem claim4_no_transmuter_iff {α : Type} (g : Grimoire) (sem : FnSem α)
    (dsem : DetSem α) (value : α) (tw : Obj) (vw : List Obj) (th : Obj)
    (vh : List Obj) (explicit : Bool) (sfuel : Nat) :
    (isNoTransmuter (transmute g sem dsem value tw vw th vh explicit sfuel) = true ↔
      NoTransCond g (pyHash th)
        (hashTags (mergedVariations g dsem th value vh explicit)) (pyHash tw)) ∧
    ∀ vw2, isNoTransmuter (transmute g sem dsem value tw vw th vh explicit sfuel) =
      isNoTransmuter (transmute g sem dsem value tw vw2 th vh explicit sfuel) := by
  have key : ∀ vw2 : List Obj,
      isNoTransmuter (transmute g sem dsem value tw vw2 th vh explicit sfuel) = true ↔
        NoTransCond g (pyHash th)
          (hashTags (mergedVariations g dsem th value vh explicit)) (pyHash tw) := by
    intro vw2
    unfold transmute transmuteT
    exact transmuteLoop_noTrans_iff g sem value th
      (mergedVariations g dsem th value vh explicit) tw vw2 9 [] [] sfuel
  refine ⟨key vw, ?_⟩
  intro vw2
  by_cases hc : NoTransCond g (pyHash th)
      (hashTags (mergedVariations g dsem th value vh explicit)) (pyHash tw)
  · rw [(key vw).mpr hc, (key vw2).mpr hc]
  · have e1 := (key vw).not.mpr hc
    have e2 := (key vw2).not.mpr hc
    rw [Bool.not_eq_true] at e1 e2
    rw [e1, e2]

/-- Witness for C4 on the failure-scenario registry: starting at `E` with no
tags, the only edge out of `E` requires `var`, so the call raises
`NoTransmuterError`. -/
theorem claim4_no_transmuter_iff_witness :
    isNoTransmuter (transmute gFail semFail dsemNone "start" catF [] catE [] false 10) =
        true ↔
      NoTransCond gFail (pyHash catE)
        (hashTags (mergedVariations gFail dsemNone catE "start" [] false))
        (pyHash catF) :=
  (claim4_no_transmuter_iff gFail semFail dsemNone "start" catF [] catE [] false 10).1

/-- **C5.** A single transmute call performs at most 10 plan-and-execute
attempts (the ghost attempt counter of `transmuteT` is bounded by the
`range(10)` budget); each edge-function failure bans the failing edge and
appends its `(kind, message, context)` record before replanning; exhausting
the budget raises `ExecutionError` bundling every recorded failure; and a
replan that finds no chain after a failure likewise raises `ExecutionError`
with all recorded failures. -/
theorem claim5_retry_budget {α : Type} :
    (∀ (g : Grimoire) (sem : FnSem α) (dsem : DetSem α) (value : α) (tw : Obj)
        (vw : List Obj) (th : Obj) (vh : List Obj) (explicit : Bool) (sfuel : Nat),
      (transmuteT g sem dsem value tw vw th vh explicit sfuel).2 ≤ 10) ∧
    (∀ (g : Grimoire) (sem : FnSem α) (value : α) (th : Obj) (vh : List Obj)
        (tw : Obj) (vw : List Obj) (ig : List Transmuter) (errs : List ErrRec)
        (fuel sfuel : Nat) (ts : List Transmuter) (e : ErrRec) (t : Transmuter),
      (search g th vh tw vw ig sfuel).1 = .chain ts → ts ≠ [] →
        runChainGo sem value ts = .error (e, t) →
        transmuteLoop g sem value th vh tw vw ig errs (fuel + 1) sfuel =
          ((transmuteLoop g sem value th vh tw vw (insertT t ig) (errs ++ [e])
              fuel sfuel).1,
            (transmuteLoop g sem value th vh tw vw (insertT t ig) (errs ++ [e])
              fuel sfuel).2 + 1)) ∧
    (∀ (g : Grimoire) (sem : FnSem α) (value : α) (th : Obj) (vh : List Obj)
        (tw : Obj) (vw : List Obj) (ig : List Transmuter) (errs : List ErrRec)
        (sfuel : Nat),
      transmuteLoop g sem value th vh tw vw ig errs 0 sfuel = (.execFail errs, 0)) ∧
    (∀ (g : Grimoire) (sem : FnSem α) (value : α) (th : Obj) (vh : List Obj)
        (tw : Obj) (vw : List Obj) (ig : List Transmuter) (errs : List ErrRec)
        (fuel sfuel : Nat),
      (search g th vh tw vw ig sfuel).1 = .chain [] → errs ≠ [] →
        (transmuteLoop g sem value th vh tw vw ig errs (fuel + 1) sfuel).1 =
          .execFail errs) := by
  refine ⟨?_, ?_, ?_, ?_⟩
  · intro g sem dsem value tw vw th vh explicit sfuel
    unfold transmuteT
    exact transmuteLoop_count_le g sem value th
      (mergedVariations g dsem th value vh explicit) tw vw 10 [] [] sfuel
  · intro g sem value th vh tw vw ig errs fuel sfuel ts e t hs hne hrun
    exact transmuteLoop_fail_step g sem value th vh tw vw ig errs fuel sfuel ts e t
      hs hne hrun
  · intro g sem value th vh tw vw ig errs sfuel
    exact transmuteLoop_zero g sem value th vh tw vw ig errs sfuel
  · intro g sem value th vh tw vw ig errs fuel sfuel hs herr
    rw [transmuteLoop_empty g sem value th vh tw vw ig errs fuel sfuel hs,
      if_neg (by simpa [List.isEmpty_iff] using herr)]

/-- Witness for C5 on the failure-scenario registry: the chain `[F→G]` is
planned, its function raises `("RuntimeError", "BAD STUFF", ...)`, and the
loop bans `F→G`, records the error and replans. -/
theorem claim5_retry_budget_witness :
    ((transmuteT gFail semFail dsemNone "start" catG [] catF [] false 10).2 ≤ 10) ∧
    ((search gFail catF [] catG [] [] 10).1 = .chain [tFtoG] ∧
      ([tFtoG] : List Transmuter) ≠ [] ∧
      runChainGo semFail "start" [tFtoG] =
        .error (("RuntimeError", "BAD STUFF", ""), tFtoG) ∧
      transmuteLoop gFail semFail "start" catF [] catG [] [] [] 3 10 =
        ((transmuteLoop gFail semFail "start" catF [] catG [] (insertT tFtoG [])
            ([] ++ [("RuntimeError", "BAD STUFF", "")]) 2 10).1,
          (transmuteLoop gFail semFail "start" catF [] catG [] (insertT tFtoG [])
            ([] ++ [("RuntimeError", "BAD STUFF", "")]) 2 10).2 + 1)) := by
  refine ⟨claim5_retry_budget.1 gFail semFail dsemNone "start" catG [] catF [] false 10,
    by rfl, by simp, by rfl, ?_⟩
  exact claim5_retry_budget.2.1 gFail semFail "start" catF [] catG [] [] [] 2 10
    [tFtoG] ("RuntimeError", "BAD STUFF", "") tFtoG (by rfl) (by simp) (by rfl)

/-- **C7.** Every chain returned by the planner (goal returns and splices of
the forward and backward frontiers alike) is categorically connected: its
first edge's input hash is the source hash, its last edge's output hash is
the destination hash, and each edge's output hash equals the next edge's
input hash. -/
theorem claim7_connectivity (g : Grimoire) (type_in : Obj) (vin : List Obj)
    (type_out : Obj) (vout : List Obj) (ig : List Transmuter) (fuel : Nat)
    (l : List Transmuter) (hwf : WFGrim g)
    (hl : (search g type_in vin type_out vout ig fuel).1 = .chain l)
    (hne : l ≠ []) :
    (∃ hd, l.head? = some hd ∧ hd.hash_in = pyHash type_in) ∧
      (∃ lst, l.getLast? = some lst ∧ lst.hash_out = pyHash type_out) ∧
      List.Chain' (fun a b => a.hash_out = b.hash_in) l := by
  rw [search_eq_searchHashed] at hl
  rcases searchHashed_good g hwf (pyHash type_in) (pyHash type_out) (hashTags vin)
    (hashTags vout) ig fuel l hl with h | h
  · exact absurd h hne
  · exact ⟨h.2.1, h.2.2.1, h.2.2.2.1⟩

/-- Witness for C7: the tag-detour registry is well formed and the basic
`A`-to-`B` search returns the single-edge chain, which is connected. -/
theorem claim7_connectivity_witness :
    WFGrim gBasicVar ∧
      (search gBasicVar catA [] catB [] [] 10).1 = .chain [tAtoB] ∧
      (([tAtoB] : List Transmuter) ≠ []) ∧
      ((∃ hd, ([tAtoB] : List Transmuter).head? = some hd ∧ hd.hash_in = pyHash catA) ∧
        (∃ lst, ([tAtoB] : List Transmuter).getLast? = some lst ∧
          lst.hash_out = pyHash catB) ∧
        List.Chain' (fun a b => a.hash_out = b.hash_in) [tAtoB]) :=
  ⟨by decide, by rfl, by simp,
    claim7_connectivity gBasicVar catA [] catB [] [] 10 [tAtoB] (by decide) (by rfl)
      (by simp)⟩

/-- **C10.** A successful `transmute` always applies at least one registered
edge function: when it returns a value, that value is the result of running
the functions of some non-empty chain of registered edges from the input
value; and when no registered edge leaves the starting category `T` with
satisfiable requirements (or none enters `T`), it raises `NoTransmuterError`
instead of acting as the identity. -/
theorem claim10_at_least_one_edge {α : Type} (g : Grimoire) (sem : FnSem α)
    (dsem : DetSem α) (value : α) (T : Obj) (vw vh : List Obj) (explicit : Bool)
    (sfuel : Nat) (hwf : WFGrim g) :
    (∀ v, transmute g sem dsem value T vw T vh explicit sfuel = .ok v →
      ∃ ts, ts ≠ [] ∧ (∀ t ∈ ts, EdgeReg g t) ∧ runChainGo sem value ts = .ok v) ∧
    (NoTransCond g (pyHash T)
        (hashTags (mergedVariations g dsem T value vh explicit)) (pyHash T) →
      isNoTransmuter (transmute g sem dsem value T vw T vh explicit sfuel) = true) := by
  constructor
  · intro v hv
    unfold transmute transmuteT at hv
    obtain ⟨ts, ig2, hs, hne, hrun⟩ := transmuteLoop_ok g sem value T
      (mergedVariations g dsem T value vh explicit) T vw 10 [] [] sfuel v hv
    rw [search_eq_searchHashed] at hs
    rcases searchHashed_good g hwf (pyHash T) (pyHash T)
      (hashTags (mergedVariations g dsem T value vh explicit)) (hashTags vw) ig2
      sfuel ts hs with h | h
    · exact absurd h hne
    · exact ⟨ts, hne, h.2.2.2.2, hrun⟩
  · intro hc
    unfold transmute transmuteT
    exact (transmuteLoop_noTrans_iff g sem value T
      (mergedVariations g dsem T value vh explicit) T vw 9 [] [] sfuel).mpr hc

/-- Witness for C10 on the tag-detour registry, whose `A`-to-`A` transmute
succeeds by applying four registered edge functions. -/
theorem claim10_at_least_one_edge_witness :
    WFGrim gBasicVar ∧
      ∃ ts, ts ≠ [] ∧ (∀ t ∈ ts, EdgeReg gBasicVar t) ∧
        runChainGo semBasicVar "start" ts =
          .ok "start -> AtoB -> BtoC -> CtoB:var -> BtoA" :=
  ⟨by decide,
    (claim10_at_least_one_edge gBasicVar semBasicVar dsemNone "start" catA [tagVar]
      [] false 30 (by decide)).1 _ (by rfl)⟩

/-- **C8 counterexample.** The claim states that a popped forward node whose
visited key `(edge, parent state or null)` is already recorded is skipped
without being goal-checked, meet-checked or expanded, so that no key is ever
expanded twice.  On the diamond registry the ghost expansion trace of the
forward search records the key `(D→E, {})` twice: the two same-state routes
`A→B→D` and `A→C→D` each push `D→E` before its first pop, and the code
expands both pops (it never consults the visited table for a popped node). -/
theorem claim8_key_expanded_twice :
    (search gDiamond catA [] catG [] [] 20).2.count
      (true, tDiaDE, (some (∅ : Finset Int) : VKey)) = 2 := by rfl

/-- **C8 amended.** The code never skips a popped node via the visited
table: a popped forward node that passes the banned check and satisfies the
goal condition returns its chain unconditionally, whatever the visited
tables contain (the visited table is consulted only to suppress pushing
children whose keys are already visited), so an `(edge, parent-state)` key
can be expanded twice — as the trace of the diamond registry shows — while
on that registry the search still returns the same chain as the spec's
variant that skips the record-and-relax of already-visited keys. -/
theorem claim8_no_visited_skip_on_pop :
    (∀ (c : Ctx) (st : SState) (node : Node) (rest : List Node),
      ((!st.in_queue.isEmpty &&
          decide (st.in_queue.length < st.out_queue.length)) ||
        st.out_queue.isEmpty) = true →
      heappop nodeLt st.in_queue = some (node, rest) →
      node.transmuter ∉ c.ignore →
      node.transmuter.hash_out = c.outHash →
      c.outVars ⊆ node.variations →
      searchStep c st = .done (.chain (fwdChain node))) ∧
    (search gDiamond catA [] catG [] [] 20).2.count
      (true, tDiaDE, (some (∅ : Finset Int) : VKey)) = 2 ∧
    (search gDiamond catA [] catG [] [] 20).1 =
      .chain [tDiaAB, tDiaBD, tDiaDE, tDiaEG] ∧
    (searchSpecHashed gDiamond (pyHash catA) (hashTags []) (pyHash catG)
        (hashTags []) [] 20).1 =
      (search gDiamond catA [] catG [] [] 20).1 := by
  refine ⟨?_, by rfl, by rfl, by rfl⟩
  intro c st node rest hsel hpop hig hgoal hsub
  have hne : st.in_queue ≠ [] := by
    intro h
    rw [h] at hpop
    exact Option.noConfusion hpop
  have hc1 : ¬ (st.in_queue.isEmpty && st.out_queue.isEmpty) = true := by
    simp [List.isEmpty_iff, hne]
  unfold searchStep
  rw [if_neg hc1, if_pos hsel, hpop]
  dsimp only
  rw [if_neg hig, if_pos (⟨hgoal, hsub⟩ :
    node.transmuter.hash_out = c.outHash ∧ c.outVars ⊆ node.variations)]

/-- Witness for the amended C8: a one-element queue whose popped seed node
meets the goal condition returns its chain through the unskipped goal check. -/
theorem claim8_no_visited_skip_on_pop_witness :
    ((!([Node.mk (pyfDiv 1 1) 1 tAtoB none ∅] : List Node).isEmpty &&
        decide (([Node.mk (pyfDiv 1 1) 1 tAtoB none ∅] : List Node).length <
          ([] : List Node).length)) || ([] : List Node).isEmpty) = true ∧
      heappop nodeLt [Node.mk (pyfDiv 1 1) 1 tAtoB none ∅] =
        some (Node.mk (pyfDiv 1 1) 1 tAtoB none ∅, []) ∧
      (Node.mk (pyfDiv 1 1) 1 tAtoB none ∅).transmuter ∉ ([] : List Transmuter) ∧
      (Node.mk (pyfDiv 1 1) 1 tAtoB none ∅).transmuter.hash_out = 1 ∧
      (∅ : Finset Int) ⊆ (Node.mk (pyfDiv 1 1) 1 tAtoB none ∅).variations ∧
      searchStep (⟨Grimoire.empty, 0, 1, ∅, ∅, []⟩ : Ctx)
          (⟨[Node.mk (pyfDiv 1 1) 1 tAtoB none ∅], [], [], []⟩ : SState) =
        .done (.chain (fwdChain (Node.mk (pyfDiv 1 1) 1 tAtoB none ∅))) :=
  ⟨by rfl, by rfl, by simp, by rfl, by decide,
    claim8_no_visited_skip_on_pop.1 ⟨Grimoire.empty, 0, 1, ∅, ∅, []⟩
      ⟨[Node.mk (pyfDiv 1 1) 1 tAtoB none ∅], [], [], []⟩
      (Node.mk (pyfDiv 1 1) 1 tAtoB none ∅) [] (by rfl) (by rfl) (by simp)
      (by rfl) (by decide)⟩

end Transmute